import Mathlib

/-!
# Verification of the MobileGeodatabaseLib ST_Geometry blob decoder

A shallow embedding of the Esri Mobile Geodatabase ST_Geometry blob decoder
(`src/mobile_geodatabase/decoder.py`), of the earlier standalone decoder
revision (`st_geometry_decoder.py`), and of the WKB serializer
(`src/mobile_geodatabase/converters.py`), together with proofs about them.

Modelling conventions:
* a blob is a `List ℕ` of byte values;
* Python's unbounded integers are `ℕ`/`ℤ`;
* Python float arithmetic in `raw_to_coord` is modelled over `ℚ`
  (the decoder only divides by the scale and adds the origin);
* a Python function that can raise is modelled with `Except`/`Option`.
-/

namespace MobileGeodatabase

/-- Coordinate-system parameters (`CoordinateSystem` in `geometry.py`).
Only the fields the decoder consults are carried. -/
structure CoordinateSystem where
  x_origin : ℚ := -20037700
  y_origin : ℚ := -30241100
  xy_scale : ℚ := 10000
  z_origin : ℚ := -100000
  z_scale : ℚ := 10000
deriving DecidableEq, Repr

/-- `CoordinateSystem.effective_xy_scale`: the actual scale used in encoding
(2x metadata value). -/
def CoordinateSystem.effective_xy_scale (cs : CoordinateSystem) : ℚ :=
  cs.xy_scale * 2

/-- The default coordinate system (EPSG:3857 Web Mercator defaults). -/
def defaultCS : CoordinateSystem := {}

/-- Magic header bytes `0x64 0x11 0x0F 0x00`. -/
def MAGIC : List ℕ := [0x64, 0x11, 0x0F, 0x00]

/-- Threshold distinguishing coordinates from metadata varints (100 billion). -/
def COORD_THRESHOLD : ℕ := 100000000000

/-- Inner loop of `STGeometryDecoder.read_varint`, recursing over the bytes
remaining from the current offset.  `result` and `shift` accumulate exactly as
in the source; the returned offset is the source's final `offset`. -/
def readVarintAux : List ℕ → ℕ → ℕ → ℕ → ℕ × ℕ
  | [], result, _, offset => (result, offset)
  | b :: rest, result, shift, offset =>
    let result := result ||| ((b &&& 0x7F) <<< shift)
    if b &&& 0x80 = 0 then (result, offset + 1)
    else readVarintAux rest result (shift + 7) (offset + 1)

/-- `STGeometryDecoder.read_varint`: read an unsigned varint from `data`
starting at `offset`, returning `(value, new_offset)`.  The source's
`while offset < len(data)` loop is the recursion over `data.drop offset`. -/
def read_varint (data : List ℕ) (offset : ℕ) : ℕ × ℕ :=
  readVarintAux (data.drop offset) 0 0 offset

/-- `STGeometryDecoder.zigzag_decode`: `(n >> 1) ^ -(n & 1)`, i.e. even `n`
maps to `n/2` and odd `n` to `-(n/2) - 1`. -/
def zigzag_decode (n : ℕ) : ℤ :=
  if n % 2 = 0 then (n / 2 : ℕ) else -((n / 2 : ℕ) : ℤ) - 1

/-- `STGeometryDecoder.raw_to_coord`: convert raw encoded values to real
coordinates, `x = raw_x / effective_scale + x_origin` and likewise for `y`. -/
def raw_to_coord (cs : CoordinateSystem) (raw_x raw_y : ℤ) : ℚ × ℚ :=
  ((raw_x : ℚ) / cs.effective_xy_scale + cs.x_origin,
   (raw_y : ℚ) / cs.effective_xy_scale + cs.y_origin)

/-- Decoded geometry values.  The decoder only ever produces these four
variants; a `LineString`'s points and a `Polygon`'s rings are kept as bare
coordinate lists, as in `geometry.py` (the decoder never sets `z_values`). -/
inductive Geometry where
  | point (x y : ℚ)
  | linestring (points : List (ℚ × ℚ))
  | polygon (rings : List (List (ℚ × ℚ)))
  | multilinestring (lines : List (List (ℚ × ℚ)))
deriving DecidableEq, Repr

/-- The `ValueError`s the two decoder revisions can raise.  `xRawUnbound`
models the standalone revision's `NameError` when no varint above the
coordinate threshold is found (its `x_raw` is never assigned); the packaged
revision instead initialises `x_raw = 0`. -/
inductive DecodeError where
  | blobTooShort
  | invalidMagic
  | emptyGeometry
  | partInfoRunaway
  | xRawUnbound
deriving DecidableEq, Repr

/-- Number of parts of a decoded geometry (rings for a polygon, lines for a
multi-linestring, one otherwise). -/
def numParts : Geometry → ℕ
  | .point _ _ => 1
  | .linestring _ => 1
  | .polygon rings => rings.length
  | .multilinestring lines => lines.length

/-- Per-part point counts of a decoded geometry. -/
def partLengths : Geometry → List ℕ
  | .point _ _ => [1]
  | .linestring points => [points.length]
  | .polygon rings => rings.map List.length
  | .multilinestring lines => lines.map List.length

/-- Total number of points of a decoded geometry (the sum of the per-part
point counts). -/
def totalPoints (g : Geometry) : ℕ := (partLengths g).sum

/-- The unsigned 32-bit little-endian point count at bytes 4..7
(`struct.unpack("<I", blob[4:8])`). -/
def pointCountOf (blob : List ℕ) : ℕ :=
  blob.getD 4 0 + 256 * blob.getD 5 0 + 65536 * blob.getD 6 0 +
    16777216 * blob.getD 7 0

/-- `STGeometryDecoder._decode_point`: decode the fixed 30-byte point layout.
Coordinates start at byte 18. -/
def decode_point (cs : CoordinateSystem) (blob : List ℕ) : Geometry :=
  let r1 := read_varint blob 18
  let r2 := read_varint blob r1.2
  let xy := raw_to_coord cs r1.1 r2.1
  .point xy.1 xy.2

theorem readVarintAux_offset_le (l : List ℕ) (result shift offset : ℕ) :
    offset ≤ (readVarintAux l result shift offset).2 := by
  induction l generalizing result shift offset with
  | nil => simp [readVarintAux]
  | cons b rest ih =>
    simp only [readVarintAux]
    split
    · simp
    · exact le_trans (Nat.le_succ offset) (ih _ _ _)

theorem read_varint_lt (data : List ℕ) (offset : ℕ) (h : offset < data.length) :
    offset < (read_varint data offset).2 := by
  unfold read_varint
  obtain ⟨b, rest, hd⟩ : ∃ b rest, data.drop offset = b :: rest := by
    cases hdrop : data.drop offset with
    | nil =>
      exfalso
      have := List.length_drop offset data
      rw [hdrop] at this
      simp at this
      omega
    | cons b rest => exact ⟨b, rest, rfl⟩
  rw [hd]
  simp only [readVarintAux]
  split
  · omega
  · exact lt_of_lt_of_le (Nat.lt_succ_self offset) (readVarintAux_offset_le _ _ _ _)

/-- The part-information loop of `_decode_complex`: read "small" varints into
`part_info` until one exceeds `COORD_THRESHOLD` (the first X coordinate) or
the blob is exhausted (in which case `x_raw` keeps its initial value `0`).
More than 10000 small varints is a `ValueError` ("Could not find coordinate
start").  Returns `(part_info, x_raw, pos)`. -/
def partInfoLoop (blob : List ℕ) (pos : ℕ) (part_info : List ℕ) :
    Except DecodeError (List ℕ × ℕ × ℕ) :=
  if h : pos < blob.length then
    let v := (read_varint blob pos).1
    let new_pos := (read_varint blob pos).2
    if v > COORD_THRESHOLD then
      .ok (part_info, v, new_pos)
    else
      let part_info' := part_info ++ [v]
      if part_info'.length > 10000 then .error .partInfoRunaway
      else partInfoLoop blob new_pos part_info'
  else
    .ok (part_info, 0, pos)
termination_by blob.length - pos
decreasing_by
  have := read_varint_lt blob pos h
  omega

/-- The part-structure determination of `_decode_complex` (lines 184-214):
accept `part_info[0]` as the part count `M` with per-part counts
`part_info[1:M+1]` when `0 < M < 10000`, there are enough entries, all counts
are non-negative and they sum to the header point count; otherwise fall back
to a single part of `point_count` points. -/
def selectPartStructure (part_info : List ℕ) (point_count : ℕ) : ℕ × List ℕ :=
  match part_info with
  | [] => (1, [point_count])
  | p0 :: rest =>
    if 0 < p0 ∧ p0 < 10000 ∧ (p0 :: rest).length > p0 then
      let potential_counts := rest.take p0
      if potential_counts ≠ [] ∧ (∀ c ∈ potential_counts, 0 ≤ c) ∧
          potential_counts.sum = point_count then
        (p0, potential_counts)
      else (1, [point_count])
    else (1, [point_count])

/-- The state threaded through the coordinate-stream loop of
`_decode_complex`.  `pairs_read` is instrumentation only: it counts the
`(v1, v2)` varint pairs consumed and is read by no other field. -/
structure DecState where
  pos : ℕ
  curr_x : ℤ
  curr_y : ℤ
  current_part : List (ℚ × ℚ)
  prev_was_absolute : Bool
  pending_coord : Option (ℚ × ℚ)
  parts : List (List (ℚ × ℚ))
  pairs_read : ℕ
deriving DecidableEq, Repr

/-- The body of the coordinate-pair loop of `_decode_complex` (lines 245-282)
after the two varints `v1, v2` have been read: absolute reset (with the
consecutive-absolute part boundary and the one-slot pending buffer) or
zigzag delta.  Does not touch `pos` or `pairs_read`. -/
def applyPair (cs : CoordinateSystem) (v1 v2 : ℕ) (st : DecState) : DecState :=
  if v1 > COORD_THRESHOLD then
    let coord := raw_to_coord cs v1 v2
    match st.prev_was_absolute, st.pending_coord with
    | true, some p =>
      let closed := st.current_part ++ [p]
      { st with
        curr_x := v1, curr_y := v2,
        parts := if closed ≠ [] then st.parts ++ [closed] else st.parts,
        current_part := [coord],
        pending_coord := none,
        prev_was_absolute := true }
    | _, _ =>
      { st with
        curr_x := v1, curr_y := v2,
        pending_coord := some coord,
        prev_was_absolute := true }
  else
    let flushed :=
      match st.pending_coord with
      | some p => st.current_part ++ [p]
      | none => st.current_part
    let dx := zigzag_decode v1
    let dy := zigzag_decode v2
    let nx := st.curr_x + dx
    let ny := st.curr_y + dy
    { st with
      curr_x := nx, curr_y := ny,
      current_part := flushed ++ [raw_to_coord cs nx ny],
      pending_coord := none,
      prev_was_absolute := false }

/-- One iteration of the coordinate-pair loop: read `v1` then `v2` at the
current position, then apply `applyPair`. -/
def coordStep (cs : CoordinateSystem) (blob : List ℕ) (st : DecState) : DecState :=
  let r1 := read_varint blob st.pos
  let r2 := read_varint blob r1.2
  applyPair cs r1.1 r2.1 { st with pos := r2.2, pairs_read := st.pairs_read + 1 }

/-- The `for _ in range(points_to_read)` loop of `_decode_complex`: run
`coordStep` `n` times, stopping early when the position reaches the end of
the blob (`if pos >= len(blob): break`). -/
def innerLoop (cs : CoordinateSystem) (blob : List ℕ) : ℕ → DecState → DecState
  | 0, st => st
  | n + 1, st =>
    if st.pos ≥ blob.length then st
    else innerLoop cs blob n (coordStep cs blob st)

/-- After a part's pair loop, any remaining pending coordinate is appended to
the current part (lines 284-286). -/
def flushPending (st : DecState) : DecState :=
  match st.pending_coord with
  | some p => { st with current_part := st.current_part ++ [p], pending_coord := none }
  | none => st

/-- After a part's pair loop and pending flush, the non-empty current part
is appended to `parts` (lines 288-289). -/
def commitPart (st : DecState) : DecState :=
  if st.current_part ≠ [] then
    { st with parts := st.parts ++ [st.current_part], current_part := [] }
  else st

/-- Initialisation of the per-part fields: the first part starts with the
already-read first coordinate and its count is reduced by one (lines
230-239); later parts start empty. -/
def initPart (cs : CoordinateSystem) (is_first : Bool) (st : DecState) : DecState :=
  if is_first then
    { st with
      current_part := [raw_to_coord cs st.curr_x st.curr_y],
      prev_was_absolute := true, pending_coord := none }
  else
    { st with
      current_part := [], prev_was_absolute := false, pending_coord := none }

/-- One iteration of the `for part_idx in range(num_parts)` loop: initialise
the per-part fields, run the pair loop, flush the pending coordinate and
append the non-empty current part to `parts`. -/
def runPart (cs : CoordinateSystem) (blob : List ℕ) (is_first : Bool) (cnt : ℕ)
    (st : DecState) : DecState :=
  commitPart (flushPending
    (innerLoop cs blob (if is_first then cnt - 1 else cnt)
      (initPart cs is_first st)))

/-- The outer part loop of `_decode_complex`: parts `idx, idx+1, …` while
`remaining` counts down from `num_parts`; each part's declared point count is
`points_per_part[part_idx]` (or `0` past the end of the list). -/
def runAllParts (cs : CoordinateSystem) (blob : List ℕ) (points_per_part : List ℕ) :
    ℕ → ℕ → DecState → DecState
  | _, 0, st => st
  | idx, remaining + 1, st =>
    runAllParts cs blob points_per_part (idx + 1) remaining
      (runPart cs blob (idx == 0) (points_per_part.getD idx 0) st)

/-- The geometry-flags varint of a complex blob: the second varint after the
header (the first, at byte 8, is the size hint). -/
def geomFlagsOf (blob : List ℕ) : ℕ :=
  (read_varint blob (read_varint blob 8).2).1

/-- Position after the size hint, geometry flags and the four bounding-box
varints of a complex blob (six varint reads from byte 8). -/
def bboxEndPos (blob : List ℕ) : ℕ :=
  (read_varint blob
    (read_varint blob
      (read_varint blob
        (read_varint blob
          (read_varint blob
            (read_varint blob 8).2).2).2).2).2).2

/-- Geometry-type assembly of `_decode_complex` (lines 291-303): low nibble 8
of the flags is the polygon family (every part a ring of a single polygon);
anything else is the line family (`LineString` for one part, otherwise
`MultiLineString`). -/
def assembleGeometry (geom_flags : ℕ) (parts : List (List (ℚ × ℚ))) : Geometry :=
  if geom_flags &&& 0x0F = 8 then .polygon parts
  else if parts.length = 1 then .linestring (parts.headD [])
  else .multilinestring parts

/-- The stateful core of `_decode_complex`: header varints, part-info run,
part-structure selection and the coordinate-stream loops.  Returns the
geometry flags and the final loop state. -/
def decodeComplexState (cs : CoordinateSystem) (blob : List ℕ) (point_count : ℕ) :
    Except DecodeError (ℕ × DecState) :=
  match partInfoLoop blob (bboxEndPos blob) [] with
  | .error e => .error e
  | .ok (part_info, x_raw, pos0) =>
    let ry := read_varint blob pos0
    let sel := selectPartStructure part_info point_count
    let st0 : DecState :=
      { pos := ry.2, curr_x := x_raw, curr_y := ry.1,
        current_part := [], prev_was_absolute := false, pending_coord := none,
        parts := [], pairs_read := 0 }
    .ok (geomFlagsOf blob, runAllParts cs blob sel.2 0 sel.1 st0)

/-- `STGeometryDecoder._decode_complex`: decode line/polygon geometries with
multi-part support. -/
def decode_complex (cs : CoordinateSystem) (blob : List ℕ) (point_count : ℕ) :
    Except DecodeError Geometry :=
  (decodeComplexState cs blob point_count).map fun fs =>
    assembleGeometry fs.1 fs.2.parts

/-- `STGeometryDecoder.decode`: validate the header (length, magic, point
count) and dispatch to the point or complex path. -/
def decode (cs : CoordinateSystem) (blob : List ℕ) : Except DecodeError Geometry :=
  if blob.length < 8 then .error .blobTooShort
  else if blob.take 4 ≠ MAGIC then .error .invalidMagic
  else
    let point_count := pointCountOf blob
    if point_count = 0 then .error .emptyGeometry
    else if point_count = 1 ∧ blob.length = 30 then .ok (decode_point cs blob)
    else decode_complex cs blob point_count

/-! ## The standalone decoder revision (`st_geometry_decoder.py`)

The earlier standalone revision shares the varint reader, zigzag decoder and
coordinate conversion verbatim, but its `_decode_complex` differs: the
part-info prefix is read the same way but never interpreted, each absolute
coordinate immediately starts a new part, and exactly `point_count - 1`
further coordinate pairs are read.  When no varint above the threshold is
found its `x_raw` is never assigned and line 325 raises `NameError`, modelled
as `DecodeError.xRawUnbound`. -/

/-- The part-information loop of the standalone `_decode_complex` (lines
301-313).  Identical to `partInfoLoop` except that exhausting the blob
without finding a coordinate leaves `x_raw` unbound: the later use raises
`NameError`. -/
def stdPartInfoLoop (blob : List ℕ) (pos : ℕ) (part_info : List ℕ) :
    Except DecodeError (List ℕ × ℕ × ℕ) :=
  if h : pos < blob.length then
    let v := (read_varint blob pos).1
    let new_pos := (read_varint blob pos).2
    if v > COORD_THRESHOLD then
      .ok (part_info, v, new_pos)
    else
      let part_info' := part_info ++ [v]
      if part_info'.length > 10000 then .error .partInfoRunaway
      else stdPartInfoLoop blob new_pos part_info'
  else
    .error .xRawUnbound
termination_by blob.length - pos
decreasing_by
  have := read_varint_lt blob pos h
  omega

/-- Loop state of the standalone coordinate loop: position, running raw
coordinates, current part and completed parts. -/
structure StdState where
  pos : ℕ
  curr_x : ℤ
  curr_y : ℤ
  current_part : List (ℚ × ℚ)
  parts : List (List (ℚ × ℚ))
deriving DecidableEq, Repr

/-- Body of the standalone `while points_read < point_count` loop (lines
330-348): an absolute coordinate closes the current part and starts a new
one; otherwise the zigzag delta extends the current part. -/
def stdStep (cs : CoordinateSystem) (blob : List ℕ) (st : StdState) : StdState :=
  let r1 := read_varint blob st.pos
  let r2 := read_varint blob r1.2
  let v1 := r1.1
  let v2 := r2.1
  if v1 > COORD_THRESHOLD then
    { pos := r2.2, curr_x := v1, curr_y := v2,
      current_part := [raw_to_coord cs v1 v2],
      parts := if st.current_part ≠ [] then st.parts ++ [st.current_part] else st.parts }
  else
    let nx := st.curr_x + zigzag_decode v1
    let ny := st.curr_y + zigzag_decode v2
    { st with
      pos := r2.2, curr_x := nx, curr_y := ny,
      current_part := st.current_part ++ [raw_to_coord cs nx ny] }

/-- The standalone coordinate loop, with `remaining = point_count -
points_read` counting down and the `pos < len(blob)` guard. -/
def stdLoop (cs : CoordinateSystem) (blob : List ℕ) : ℕ → StdState → StdState
  | 0, st => st
  | n + 1, st =>
    if st.pos < blob.length then stdLoop cs blob n (stdStep cs blob st)
    else st

/-- The standalone `_decode_complex` (lines 280-374). -/
def std_decode_complex (cs : CoordinateSystem) (blob : List ℕ) (point_count : ℕ) :
    Except DecodeError Geometry :=
  match stdPartInfoLoop blob (bboxEndPos blob) [] with
  | .error e => .error e
  | .ok (_part_info, x_raw, pos0) =>
    let ry := read_varint blob pos0
    let st0 : StdState :=
      { pos := ry.2, curr_x := x_raw, curr_y := ry.1,
        current_part := [raw_to_coord cs x_raw ry.1], parts := [] }
    let stf := stdLoop cs blob (point_count - 1) st0
    let parts :=
      if stf.current_part ≠ [] then stf.parts ++ [stf.current_part] else stf.parts
    .ok (if geomFlagsOf blob &&& 0x0F = 8 then .polygon parts
         else if parts.length = 1 then .linestring (parts.headD [])
         else .multilinestring parts)

/-- The standalone `_decode_point` (lines 270-278); same fixed layout as the
packaged revision. -/
def std_decode_point (cs : CoordinateSystem) (blob : List ℕ) : Geometry :=
  let r1 := read_varint blob 18
  let r2 := read_varint blob r1.2
  let xy := raw_to_coord cs r1.1 r2.1
  .point xy.1 xy.2

/-- The standalone `decode` (lines 240-268): identical header validation and
point/complex dispatch. -/
def std_decode (cs : CoordinateSystem) (blob : List ℕ) : Except DecodeError Geometry :=
  if blob.length < 8 then .error .blobTooShort
  else if blob.take 4 ≠ MAGIC then .error .invalidMagic
  else
    let point_count := pointCountOf blob
    if point_count = 0 then .error .emptyGeometry
    else if point_count = 1 ∧ blob.length = 30 then .ok (std_decode_point cs blob)
    else std_decode_complex cs blob point_count

/-! ## WKB serialization (`converters.py`, `to_wkb`)

`to_wkb` performs no arithmetic on coordinates: it only copies each IEEE-754
double into 8 bytes via `struct.pack`, and `struct.unpack` is its inverse
byte codec.  A double is therefore modelled by its 64-bit representation
(`F64`), written out in the declared byte order.  `struct.pack("<I", n)`
raises for `n ≥ 2^32`, so count serialization is fallible. -/

/-- A 64-bit IEEE-754 double, identified with its bit pattern. -/
abbrev F64 := Fin 18446744073709551616

/-- `width` little-endian base-256 digits of `n`. -/
def leBytes : ℕ → ℕ → List ℕ
  | 0, _ => []
  | width + 1, n => n % 256 :: leBytes width (n / 256)

/-- Apply the declared byte order: big-endian reverses the little-endian
digits. -/
def bytesOrd (big_endian : Bool) (l : List ℕ) : List ℕ :=
  if big_endian then l.reverse else l

/-- `struct.pack` of one double (8 bytes in the declared order). -/
def packF64 (big_endian : Bool) (d : F64) : List ℕ :=
  bytesOrd big_endian (leBytes 8 d.val)

/-- `struct.pack` of an unconstrained 32-bit value (the WKB type codes,
always in range). -/
def u32Bytes (big_endian : Bool) (n : ℕ) : List ℕ :=
  bytesOrd big_endian (leBytes 4 n)

/-- `struct.pack("I", n)` for a count: fails (like `struct.error`) when the
count does not fit 32 bits. -/
def packCount (big_endian : Bool) (n : ℕ) : Option (List ℕ) :=
  if n < 4294967296 then some (u32Bytes big_endian n) else none

/-- Geometry values as `converters.py` serializes them: coordinates are raw
doubles, multi-geometries hold their components' fields.  Mirrors the
dataclasses of `geometry.py`. -/
inductive WGeometry where
  | point (x y : F64) (z : Option F64)
  | linestring (points : List (F64 × F64)) (z_values : Option (List F64))
  | polygon (rings : List (List (F64 × F64))) (z_values : Option (List (List F64)))
  | multipoint (points : List (F64 × F64 × Option F64))
  | multilinestring (lines : List (List (F64 × F64) × Option (List F64)))
  | multipolygon (polygons : List (List (List (F64 × F64)) × Option (List (List F64))))
deriving DecidableEq, Repr

/-- `LineString.has_z`: `z_values is not None and len(z_values) > 0`. -/
def lineHasZ (z_values : Option (List F64)) : Bool :=
  match z_values with
  | some l => l ≠ []
  | none => false

/-- `Polygon.has_z`: `z_values is not None and len(z_values) > 0`. -/
def polyHasZ (z_values : Option (List (List F64))) : Bool :=
  match z_values with
  | some l => l ≠ []
  | none => false

/-- The byte-order flag byte (`0x01` little, `0x00` big). -/
def boFlag (big_endian : Bool) : ℕ := if big_endian then 0 else 1

/-- Serialize every element with a fallible serializer (the loop
`for line in geom.lines: data += to_wkb(line)` with its possible
`struct.error`/`IndexError`). -/
def optList {α β : Type} (f : α → Option β) : List α → Option (List β)
  | [] => some []
  | x :: xs => (f x).bind fun b => (optList f xs).map fun bs => b :: bs

/-- XY coordinate bytes of a point run (`struct.pack(dd)` per point). -/
def coordPairs (big_endian : Bool) (points : List (F64 × F64)) : List ℕ :=
  (points.map fun p => packF64 big_endian p.1 ++ packF64 big_endian p.2).flatten

/-- XYZ coordinate bytes of a point run (`struct.pack(ddd)` with
`z_values[i]` per point); accessing past the end of the z list is an
`IndexError`, modelled as `none`. -/
def coordTriples (big_endian : Bool) :
    List (F64 × F64) → List F64 → Option (List ℕ)
  | [], _ => some []
  | p :: ps, z :: zs =>
    (coordTriples big_endian ps zs).map fun rest =>
      packF64 big_endian p.1 ++ packF64 big_endian p.2 ++
        packF64 big_endian z ++ rest
  | _ :: _, [] => none

/-- `to_wkb` on a `Point`: byte-order flag, type `1` (`| 0x80000000` with Z),
then the coordinate doubles. -/
def wkbPointBytes (big_endian : Bool) (x y : F64) (z : Option F64) : List ℕ :=
  let wkb_type : ℕ := 1 ||| (if z.isSome then 0x80000000 else 0)
  boFlag big_endian :: u32Bytes big_endian wkb_type ++
    packF64 big_endian x ++ packF64 big_endian y ++
    (match z with | some zv => packF64 big_endian zv | none => [])

/-- `to_wkb` on a `LineString`: flag, type `2`, point count, then per-point
doubles (three per point when `has_z`). -/
def wkbLineStringBytes (big_endian : Bool) (points : List (F64 × F64))
    (z_values : Option (List F64)) : Option (List ℕ) :=
  let hz := lineHasZ z_values
  let wkb_type : ℕ := 2 ||| (if hz then 0x80000000 else 0)
  (packCount big_endian points.length).bind fun cnt =>
    (if hz then
      match z_values with
      | some l => coordTriples big_endian points l
      | none => none
    else some (coordPairs big_endian points)).map fun coords =>
      boFlag big_endian :: u32Bytes big_endian wkb_type ++ cnt ++ coords

/-- Per-ring bytes of a polygon with Z: each ring's count then its coordinate
doubles; rings beyond the z list fall back to XY pairs (the source's
`i < len(z_values)` guard). -/
def ringsBytesZ (big_endian : Bool) :
    List (List (F64 × F64)) → List (List F64) → Option (List ℕ)
  | [], _ => some []
  | r :: rs, z0 :: zs =>
    (packCount big_endian r.length).bind fun cnt =>
      (coordTriples big_endian r z0).bind fun tri =>
        (ringsBytesZ big_endian rs zs).map fun rest => cnt ++ tri ++ rest
  | r :: rs, [] =>
    (packCount big_endian r.length).bind fun cnt =>
      (ringsBytesZ big_endian rs []).map fun rest =>
        cnt ++ coordPairs big_endian r ++ rest

/-- Per-ring bytes of a polygon without Z. -/
def ringsBytesNoZ (big_endian : Bool) :
    List (List (F64 × F64)) → Option (List ℕ)
  | [] => some []
  | r :: rs =>
    (packCount big_endian r.length).bind fun cnt =>
      (ringsBytesNoZ big_endian rs).map fun rest =>
        cnt ++ coordPairs big_endian r ++ rest

/-- `to_wkb` on a `Polygon`: flag, type `3`, ring count, then each ring's
count and coordinates. -/
def wkbPolygonBytes (big_endian : Bool) (rings : List (List (F64 × F64)))
    (z_values : Option (List (List F64))) : Option (List ℕ) :=
  let hz := polyHasZ z_values
  let wkb_type : ℕ := 3 ||| (if hz then 0x80000000 else 0)
  (packCount big_endian rings.length).bind fun cnt =>
    (if hz then
      match z_values with
      | some zl => ringsBytesZ big_endian rings zl
      | none => none
    else ringsBytesNoZ big_endian rings).map fun body =>
      boFlag big_endian :: u32Bytes big_endian wkb_type ++ cnt ++ body

/-- `to_wkb` (`converters.py` lines 224-297): dispatch on the variant;
multi-geometries embed the full WKB of each component. -/
def to_wkb (big_endian : Bool) : WGeometry → Option (List ℕ)
  | .point x y z => some (wkbPointBytes big_endian x y z)
  | .linestring points z_values => wkbLineStringBytes big_endian points z_values
  | .polygon rings z_values => wkbPolygonBytes big_endian rings z_values
  | .multipoint points =>
    let hz := points.any fun p => p.2.2.isSome
    let wkb_type : ℕ := 4 ||| (if hz then 0x80000000 else 0)
    (packCount big_endian points.length).map fun cnt =>
      boFlag big_endian :: u32Bytes big_endian wkb_type ++ cnt ++
        (points.map fun p => wkbPointBytes big_endian p.1 p.2.1 p.2.2).flatten
  | .multilinestring lines =>
    let hz := lines.any fun l => lineHasZ l.2
    let wkb_type : ℕ := 5 ||| (if hz then 0x80000000 else 0)
    (packCount big_endian lines.length).bind fun cnt =>
      (optList (fun l => wkbLineStringBytes big_endian l.1 l.2) lines).map
        fun comps =>
          boFlag big_endian :: u32Bytes big_endian wkb_type ++ cnt ++
            comps.flatten
  | .multipolygon polygons =>
    let hz := polygons.any fun p => polyHasZ p.2
    let wkb_type : ℕ := 6 ||| (if hz then 0x80000000 else 0)
    (packCount big_endian polygons.length).bind fun cnt =>
      (optList (fun p => wkbPolygonBytes big_endian p.1 p.2) polygons).map
        fun comps =>
          boFlag big_endian :: u32Bytes big_endian wkb_type ++ cnt ++
            comps.flatten

/-! ### A conforming little-endian WKB parser

Modelled from the spec: first byte `0x01`, unsigned 32-bit type code `1..6`
OR'd with `0x80000000` when Z is present, 32-bit unsigned ring/part counts,
coordinates as IEEE-754 doubles, and nested multi-geometry components each
carrying their own byte-order byte and type header. -/

/-- Read a little-endian unsigned 32-bit integer. -/
def parseU32 (bs : List ℕ) : Option (ℕ × List ℕ) :=
  match bs with
  | b0 :: b1 :: b2 :: b3 :: rest =>
    some (b0 + 256 * b1 + 65536 * b2 + 16777216 * b3, rest)
  | _ => none

/-- Read one little-endian IEEE-754 double (8 bytes). -/
def parseF64 (bs : List ℕ) : Option (F64 × List ℕ) :=
  match bs with
  | b0 :: b1 :: b2 :: b3 :: b4 :: b5 :: b6 :: b7 :: rest =>
    let v := b0 + 256 * (b1 + 256 * (b2 + 256 * (b3 + 256 * (b4 + 256 *
      (b5 + 256 * (b6 + 256 * b7))))))
    if h : v < 18446744073709551616 then some (⟨v, h⟩, rest) else none
  | _ => none

/-- Read `n` coordinate tuples (2 doubles each, or 3 when `hz`), returning
the XY pairs and the z list (empty when `hz` is false). -/
def parsePoints (hz : Bool) : ℕ → List ℕ →
    Option ((List (F64 × F64) × List F64) × List ℕ)
  | 0, bs => some (([], []), bs)
  | n + 1, bs =>
    (parseF64 bs).bind fun x =>
      (parseF64 x.2).bind fun y =>
        if hz then
          (parseF64 y.2).bind fun z =>
            (parsePoints hz n z.2).map fun rest =>
              (((x.1, y.1) :: rest.1.1, z.1 :: rest.1.2), rest.2)
        else
          (parsePoints hz n y.2).map fun rest =>
            (((x.1, y.1) :: rest.1.1, rest.1.2), rest.2)

/-- Read `n` rings (each a 32-bit count followed by its coordinates). -/
def parseRings (hz : Bool) : ℕ → List ℕ →
    Option ((List (List (F64 × F64)) × List (List F64)) × List ℕ)
  | 0, bs => some (([], []), bs)
  | n + 1, bs =>
    (parseU32 bs).bind fun m =>
      (parsePoints hz m.1 m.2).bind fun ring =>
        (parseRings hz n ring.2).map fun rest =>
          ((ring.1.1 :: rest.1.1, ring.1.2 :: rest.1.2), rest.2)

/-- Parse one component header (byte-order byte `0x01` and type code),
returning the Z flag and base type. -/
def parseHeader (bs : List ℕ) : Option ((Bool × ℕ) × List ℕ) :=
  match bs with
  | 1 :: rest =>
    (parseU32 rest).map fun t =>
      ((decide (t.1 &&& 0x80000000 ≠ 0), t.1 &&& 0x7FFFFFFF), t.2)
  | _ => none

/-- Parse one point geometry (with its own full header). -/
def parsePointComp (bs : List ℕ) : Option ((F64 × F64 × Option F64) × List ℕ) :=
  (parseHeader bs).bind fun h =>
    if h.1.2 = 1 then
      (parseF64 h.2).bind fun x =>
        (parseF64 x.2).bind fun y =>
          if h.1.1 then
            (parseF64 y.2).map fun z => ((x.1, y.1, some z.1), z.2)
          else some ((x.1, y.1, none), y.2)
    else none

/-- Parse one linestring geometry (with its own full header). -/
def parseLineComp (bs : List ℕ) :
    Option ((List (F64 × F64) × Option (List F64)) × List ℕ) :=
  (parseHeader bs).bind fun h =>
    if h.1.2 = 2 then
      (parseU32 h.2).bind fun n =>
        (parsePoints h.1.1 n.1 n.2).map fun pts =>
          ((pts.1.1, if h.1.1 then some pts.1.2 else none), pts.2)
    else none

/-- Parse one polygon geometry (with its own full header). -/
def parsePolyComp (bs : List ℕ) :
    Option ((List (List (F64 × F64)) × Option (List (List F64))) × List ℕ) :=
  (parseHeader bs).bind fun h =>
    if h.1.2 = 3 then
      (parseU32 h.2).bind fun n =>
        (parseRings h.1.1 n.1 n.2).map fun rings =>
          ((rings.1.1, if h.1.1 then some rings.1.2 else none), rings.2)
    else none

/-- Parse `n` components with a given component parser. -/
def parseNComps {α : Type} (p : List ℕ → Option (α × List ℕ)) :
    ℕ → List ℕ → Option (List α × List ℕ)
  | 0, bs => some ([], bs)
  | n + 1, bs =>
    (p bs).bind fun c =>
      (parseNComps p n c.2).map fun rest => (c.1 :: rest.1, rest.2)

/-- A conforming little-endian OGC WKB parser over the claim's layout rules,
returning the geometry and the unconsumed tail.  It dispatches on the base
type of the header; base geometries delegate to the component parsers and
multi-geometries read a count and then that many full components. -/
def parseWkb (bs : List ℕ) : Option (WGeometry × List ℕ) :=
  (parseHeader bs).bind fun h =>
    if h.1.2 = 1 then
      (parsePointComp bs).map fun c => (.point c.1.1 c.1.2.1 c.1.2.2, c.2)
    else if h.1.2 = 2 then
      (parseLineComp bs).map fun c => (.linestring c.1.1 c.1.2, c.2)
    else if h.1.2 = 3 then
      (parsePolyComp bs).map fun c => (.polygon c.1.1 c.1.2, c.2)
    else if h.1.2 = 4 then
      (parseU32 h.2).bind fun n =>
        (parseNComps parsePointComp n.1 n.2).map fun comps =>
          (.multipoint comps.1, comps.2)
    else if h.1.2 = 5 then
      (parseU32 h.2).bind fun n =>
        (parseNComps parseLineComp n.1 n.2).map fun comps =>
          (.multilinestring comps.1, comps.2)
    else if h.1.2 = 6 then
      (parseU32 h.2).bind fun n =>
        (parseNComps parsePolyComp n.1 n.2).map fun comps =>
          (.multipolygon comps.1, comps.2)
    else none

/-- The data-model invariants of the spec for a linestring: positive point
count and, when Z is present, z values aligned 1:1 with the points. -/
def lineInv (points : List (F64 × F64)) (z_values : Option (List F64)) : Prop :=
  points ≠ [] ∧
    (match z_values with
     | none => True
     | some l => l.length = points.length)

/-- The data-model invariants of the spec for a polygon: at least one ring,
positive point counts per ring and, when Z is present, ring-aligned z
lists. -/
def polyInv (rings : List (List (F64 × F64)))
    (z_values : Option (List (List F64))) : Prop :=
  rings ≠ [] ∧ (∀ r ∈ rings, r ≠ []) ∧
    (match z_values with
     | none => True
     | some zl => List.Forall₂ (fun r (z : List F64) => z.length = r.length) rings zl)

/-- The data-model invariants of the spec (§3): positive point counts, empty
geometries not representable, Z sequences aligned 1:1 with point
sequences. -/
def WInvariant : WGeometry → Prop
  | .point _ _ _ => True
  | .linestring points z_values => lineInv points z_values
  | .polygon rings z_values => polyInv rings z_values
  | .multipoint points => points ≠ []
  | .multilinestring lines => lines ≠ [] ∧ ∀ l ∈ lines, lineInv l.1 l.2
  | .multipolygon polygons => polygons ≠ [] ∧ ∀ p ∈ polygons, polyInv p.1 p.2

/-! ## Concrete fixture blobs -/

/-- The spec's point scenario: 30 bytes, `N = 1`, ten opaque bytes, then
varints `raw_x = 137695015937` and `raw_y = 724105586082`. -/
def pointBlob : List ℕ :=
  [100, 17, 15, 0, 1, 0, 0, 0, 0, 0, 0, 0, 0, 0, 0, 0, 0, 0,
   129, 232, 140, 250, 128, 4, 162, 203, 185, 192, 137, 21]

/-- A complex blob with header count `N = 3` whose coordinate stream is
truncated: flags 4, zero bounding box, first coordinate pair above the
threshold, then a single delta pair. -/
def truncBlob : List ℕ :=
  [100, 17, 15, 0, 3, 0, 0, 0, 0, 4, 0, 0, 0, 0,
   129, 208, 219, 195, 244, 2, 129, 208, 219, 195, 244, 2, 2, 2]

/-- The spec's rejection scenario: `N = 4`, flags 4, part-info prefix
`[3, 1, 1, 1]` (sum `3 ≠ 4`), then an absolute first pair and three delta
pairs. -/
def rejectBlob : List ℕ :=
  [100, 17, 15, 0, 4, 0, 0, 0, 0, 4, 0, 0, 0, 0, 3, 1, 1, 1,
   129, 208, 219, 195, 244, 2, 129, 208, 219, 195, 244, 2, 2, 2, 2, 2, 2, 2]

/-- `N = 4`, flags 4, accepted part-info prefix `[2, 2, 2]`, then an
absolute first pair, one delta pair, and two consecutive absolute pairs
inside the second declared part. -/
def splitBlob : List ℕ :=
  [100, 17, 15, 0, 4, 0, 0, 0, 0, 4, 0, 0, 0, 0, 2, 2, 2,
   129, 208, 219, 195, 244, 2, 129, 208, 219, 195, 244, 2, 2, 2,
   131, 208, 219, 195, 244, 2, 131, 208, 219, 195, 244, 2,
   133, 208, 219, 195, 244, 2, 133, 208, 219, 195, 244, 2]

/-- `N = 3`, flags 4, rejected prefix, then an absolute first pair, a single
absolute reset pair (a coordinate refresh) and one delta pair. -/
def refreshBlob : List ℕ :=
  [100, 17, 15, 0, 3, 0, 0, 0, 0, 4, 0, 0, 0, 0,
   129, 208, 219, 195, 244, 2, 129, 208, 219, 195, 244, 2,
   131, 208, 219, 195, 244, 2, 131, 208, 219, 195, 244, 2, 2, 2]

/-- The spec's polygon scenario: `N = 10`, flags 8, accepted prefix
`[2, 5, 5, 0]`, two rings of five points each (the second opened by an
absolute pair followed by deltas). -/
def polyBlob : List ℕ :=
  [100, 17, 15, 0, 10, 0, 0, 0, 0, 8, 0, 0, 0, 0, 2, 5, 5, 0,
   129, 208, 219, 195, 244, 2, 129, 208, 219, 195, 244, 2,
   2, 2, 2, 2, 2, 2, 2, 2,
   139, 208, 219, 195, 244, 2, 139, 208, 219, 195, 244, 2,
   2, 2, 2, 2, 2, 2, 2, 2]

/-! ## Helper lemmas -/

theorem partInfoLoop_error_bounded :
    ∀ (m : ℕ) (blob : List ℕ) (pos : ℕ) (acc : List ℕ) (e : DecodeError),
      blob.length - pos ≤ m → partInfoLoop blob pos acc = .error e →
      e = .partInfoRunaway := by
  intro m
  induction m with
  | zero =>
    intro blob pos acc e hm h
    rw [partInfoLoop] at h
    rw [dif_neg (by omega)] at h
    exact absurd h (by simp)
  | succ m ih =>
    intro blob pos acc e hm h
    rw [partInfoLoop] at h
    by_cases hp : pos < blob.length
    · simp only [dif_pos hp] at h
      split at h
      · exact absurd h (by simp)
      · split at h
        · exact (Except.error.injEq _ _).mp h |>.symm
        · have hlt := read_varint_lt blob pos hp
          exact ih blob _ _ e (by omega) h
    · rw [dif_neg hp] at h
      exact absurd h (by simp)

theorem partInfoLoop_error_eq (blob : List ℕ) (pos : ℕ) (acc : List ℕ)
    (e : DecodeError) (h : partInfoLoop blob pos acc = .error e) :
    e = .partInfoRunaway :=
  partInfoLoop_error_bounded (blob.length - pos) blob pos acc e le_rfl h

theorem decode_complex_error_eq (cs : CoordinateSystem) (blob : List ℕ)
    (pc : ℕ) (e : DecodeError) (h : decode_complex cs blob pc = .error e) :
    e = .partInfoRunaway := by
  unfold decode_complex decodeComplexState at h
  cases hpl : partInfoLoop blob (bboxEndPos blob) [] with
  | error e2 =>
    rw [hpl] at h
    simp [Except.map] at h
    exact h ▸ partInfoLoop_error_eq _ _ _ _ hpl
  | ok v =>
    rw [hpl] at h
    simp [Except.map] at h

instance {ε α : Type} [DecidableEq ε] [DecidableEq α] : DecidableEq (Except ε α) :=
  fun a b =>
    match a, b with
    | .ok x, .ok y =>
      if h : x = y then .isTrue (by rw [h]) else .isFalse (by simp [h])
    | .error x, .error y =>
      if h : x = y then .isTrue (by rw [h]) else .isFalse (by simp [h])
    | .ok _, .error _ => .isFalse (by simp)
    | .error _, .ok _ => .isFalse (by simp)

/-! ## C1: the 30-byte single-point layout -/

/-- C1.  Every blob with the magic header, point count 1 and total length 30
decodes to a `Point` whose coordinates are the two varints read from byte 18
converted as `raw / (xy_scale*2) + origin`; on the spec's concrete 30-byte
blob with the default coordinate system the result is
`(-13152949.20315, 5964179.3041)`, within 0.01 of `(-13152949.20,
5964179.30)`. -/
theorem point_blob_decodes_by_formula :
    (∀ (cs : CoordinateSystem) (blob : List ℕ),
      blob.length = 30 → blob.take 4 = MAGIC → pointCountOf blob = 1 →
      decode cs blob = .ok (.point
        (((read_varint blob 18).1 : ℚ) / (cs.xy_scale * 2) + cs.x_origin)
        (((read_varint blob (read_varint blob 18).2).1 : ℚ) / (cs.xy_scale * 2) +
          cs.y_origin))) ∧
    decode defaultCS pointBlob =
      .ok (.point (-263058984063 / 20000) (59641793041 / 10000)) ∧
    |(-263058984063 / 20000 : ℚ) - (-13152949.20)| < 1 / 100 ∧
    |(59641793041 / 10000 : ℚ) - 5964179.30| < 1 / 100 := by
  refine ⟨?_,
    by
      have h1 : read_varint pointBlob 18 = (137695015937, 24) := by decide
      have h2 : read_varint pointBlob 24 = (724105586082, 30) := by decide
      simp +decide only [decode, decode_point]
      rw [h1, h2]
      norm_num [raw_to_coord, defaultCS, CoordinateSystem.effective_xy_scale],
    by rw [abs_lt]; constructor <;> norm_num,
    by rw [abs_lt]; constructor <;> norm_num⟩
  intro cs blob h30 hmagic hpc
  unfold decode
  rw [if_neg (by omega), if_neg (by simp [hmagic]), if_neg (by omega),
    if_pos ⟨hpc, h30⟩]
  unfold decode_point raw_to_coord CoordinateSystem.effective_xy_scale
  push_cast
  rfl

/-- Witness for `point_blob_decodes_by_formula` at the concrete 30-byte
fixture. -/
theorem point_blob_decodes_by_formula_witness :
    decode defaultCS pointBlob =
      .ok (.point
        (((read_varint pointBlob 18).1 : ℚ) / ((10000 : ℚ) * 2) + (-20037700))
        (((read_varint pointBlob (read_varint pointBlob 18).2).1 : ℚ) /
          ((10000 : ℚ) * 2) + (-30241100))) :=
  point_blob_decodes_by_formula.1 defaultCS pointBlob (by rfl) (by rfl) (by rfl)

/-! ## C7: header error conditions -/

/-- C7.  `decode` fails with `BlobTooShort` exactly on blobs shorter than 8
bytes, with `InvalidMagic` exactly when the length check passes but bytes
0..3 differ from the magic, and with `EmptyGeometry` exactly when both pass
but the header point count is zero. -/
theorem header_error_conditions :
    ∀ (cs : CoordinateSystem) (blob : List ℕ),
      (decode cs blob = .error .blobTooShort ↔ blob.length < 8) ∧
      (decode cs blob = .error .invalidMagic ↔
        ¬ blob.length < 8 ∧ blob.take 4 ≠ MAGIC) ∧
      (decode cs blob = .error .emptyGeometry ↔
        ¬ blob.length < 8 ∧ blob.take 4 = MAGIC ∧ pointCountOf blob = 0) := by
  intro cs blob
  unfold decode
  by_cases h1 : blob.length < 8
  · simp [h1]
  · by_cases h2 : blob.take 4 ≠ MAGIC
    · simp [h1, h2]
    · rw [not_not] at h2
      by_cases h3 : pointCountOf blob = 0
      · simp [h1, h2, h3]
      · by_cases h4 : pointCountOf blob = 1 ∧ blob.length = 30
        · simp [h1, h2, h3, h4]
        · rw [if_neg h1, if_neg (by simp [h2]), if_neg h3, if_neg h4]
          refine ⟨⟨?_, ?_⟩, ⟨?_, ?_⟩, ⟨?_, ?_⟩⟩
          · intro h
            exact absurd (decode_complex_error_eq cs blob _ _ h) (by simp)
          · intro h
            omega
          · intro h
            exact absurd (decode_complex_error_eq cs blob _ _ h) (by simp)
          · intro h
            exact absurd h2 h.2
          · intro h
            exact absurd (decode_complex_error_eq cs blob _ _ h) (by simp)
          · intro h
            exact absurd h.2.2 h3

/-- Witness for `header_error_conditions` on a concrete short blob. -/
theorem header_error_conditions_witness :
    decode defaultCS [100, 17, 15] = .error .blobTooShort ↔
      ([100, 17, 15] : List ℕ).length < 8 :=
  (header_error_conditions defaultCS [100, 17, 15]).1

/-! ## C8: varint reading at the end of the slice -/

/-- C8, counterexample.  On the one-byte slice `[0x80]`, whose last (and
only) byte has the continuation bit set, `read_varint` does not fail: it
returns the partially-accumulated value `0` with the offset at the end of
the slice. -/
theorem read_varint_no_truncation_failure : read_varint [128] 0 = (0, 1) := by
  decide

theorem readVarintAux_all_continuation (l : List ℕ) (result shift offset : ℕ)
    (h : ∀ b ∈ l, b &&& 0x80 ≠ 0) :
    (readVarintAux l result shift offset).2 = offset + l.length := by
  induction l generalizing result shift offset with
  | nil => simp [readVarintAux]
  | cons b rest ih =>
    simp only [readVarintAux]
    rw [if_neg (h b (by simp))]
    rw [ih _ _ _ fun c hc => h c (by simp [hc])]
    simp
    omega

/-- C8, amended.  When every byte from `offset` to the end of the slice has
the high (continuation) bit set — in particular when the high bit is set on
the last byte — `read_varint` does not fail: it runs to the end of the slice
and returns with `new_offset = data.length` (the value being the bits
accumulated so far). -/
theorem read_varint_runs_to_end (data : List ℕ) (offset : ℕ)
    (hoff : offset < data.length)
    (hbits : ∀ i < data.length, offset ≤ i → data.getD i 0 &&& 0x80 ≠ 0) :
    (read_varint data offset).2 = data.length := by
  unfold read_varint
  rw [readVarintAux_all_continuation _ _ _ _ ?_]
  · rw [List.length_drop]
    omega
  · intro b hb
    obtain ⟨j, hj, hget⟩ := List.mem_iff_getElem.mp hb
    have hjlen : offset + j < data.length := by
      have := List.length_drop offset data
      omega
    have : data.getD (offset + j) 0 = b := by
      rw [List.getD_eq_getElem data 0 hjlen, ← hget, List.getElem_drop]
    rw [← this]
    exact hbits (offset + j) hjlen (by omega)

/-- Witness for `read_varint_runs_to_end` on `[0x80, 0xC8]`. -/
theorem read_varint_runs_to_end_witness :
    (read_varint [128, 200] 0).2 = ([128, 200] : List ℕ).length :=
  read_varint_runs_to_end [128, 200] 0 (by decide)
    (by decide)

/-! ## C3: part-structure acceptance -/

/-- C3.  The decoder accepts `num_parts = p₀` with
`points_per_part = [p₁, …, p_{p₀}]` exactly when `0 < p₀ < 10000`, the run
has more than `p₀` entries, all the candidate counts are non-negative and
they sum to the header count; otherwise it falls back to `(1, [N])`.  In
particular `[3, 1, 1, 1]` with `N = 4` is rejected, and the concrete blob
with that prefix decodes as a single 4-point part. -/
theorem part_structure_acceptance :
    (∀ (P : List ℕ) (N : ℕ),
      (P ≠ [] → 0 < P.headD 0 → P.headD 0 < 10000 → P.length > P.headD 0 →
        (∀ c ∈ (P.drop 1).take (P.headD 0), 0 ≤ c) →
        ((P.drop 1).take (P.headD 0)).sum = N →
        selectPartStructure P N = (P.headD 0, (P.drop 1).take (P.headD 0))) ∧
      (¬ (P ≠ [] ∧ 0 < P.headD 0 ∧ P.headD 0 < 10000 ∧ P.length > P.headD 0 ∧
          ((P.drop 1).take (P.headD 0)).sum = N) →
        selectPartStructure P N = (1, [N]))) ∧
    selectPartStructure [3, 1, 1, 1] 4 = (1, [4]) ∧
    (decode defaultCS rejectBlob).map partLengths = .ok [4] := by
  refine ⟨?_, by decide, ?_⟩
  · intro P N
    constructor
    · intro hne h0 hlt hlen _hnn hsum
      match P with
      | [] => exact absurd rfl hne
      | p0 :: rest =>
        simp only [List.headD_cons, List.drop_one, List.tail_cons]
          at h0 hlt hlen hsum ⊢
        have htake : List.take p0 rest ≠ [] := by
          have hlen2 : (List.take p0 rest).length = p0 := by
            rw [List.length_take]
            simp at hlen
            omega
          intro hnil
          rw [hnil] at hlen2
          simp at hlen2
          omega
        simp only [selectPartStructure]
        rw [if_pos ⟨h0, hlt, hlen⟩,
          if_pos ⟨htake, fun c _ => Nat.zero_le c, hsum⟩]
    · intro hno
      match P with
      | [] => rfl
      | p0 :: rest =>
        simp only [selectPartStructure]
        split
        · next hyes =>
          split
          · next hcnt =>
            exact absurd ⟨by simp, by simpa using hyes.1,
              by simpa using hyes.2.1, by simpa using hyes.2.2,
              by simpa using hcnt.2.2⟩ hno
          · rfl
        · rfl
  · have : partInfoLoop rejectBlob (bboxEndPos rejectBlob) [] =
        .ok ([3, 1, 1, 1], 100000000001, 24) := by
      rw [partInfoLoop]
      simp +decide only []
      rw [partInfoLoop]
      simp +decide only []
      rw [partInfoLoop]
      simp +decide only []
      rw [partInfoLoop]
      simp +decide only []
      rw [partInfoLoop]
      simp +decide only []
    simp only [decode, decode_complex, decodeComplexState, this]
    norm_num
    rfl

/-- Witness for `part_structure_acceptance` at the accepted prefix
`[2, 2, 2]` with `N = 4`. -/
theorem part_structure_acceptance_witness :
    selectPartStructure [2, 2, 2] 4 =
      (([2, 2, 2] : List ℕ).headD 0,
       (([2, 2, 2] : List ℕ).drop 1).take (([2, 2, 2] : List ℕ).headD 0)) :=
  (part_structure_acceptance.1 [2, 2, 2] 4).1 (by decide) (by decide)
    (by decide) (by decide) (by decide) (by decide)

/-! ## C6: geometry-type assembly -/

theorem decodeComplexState_flags (cs : CoordinateSystem) (blob : List ℕ)
    (pc : ℕ) (fs : ℕ × DecState)
    (h : decodeComplexState cs blob pc = .ok fs) : fs.1 = geomFlagsOf blob := by
  unfold decodeComplexState at h
  cases hpl : partInfoLoop blob (bboxEndPos blob) [] with
  | error e =>
    rw [hpl] at h
    exact absurd h (by simp)
  | ok v =>
    rw [hpl] at h
    simp only [Except.ok.injEq] at h
    rw [← h]

/-- C6.  A successfully decoded complex blob assembles its parts by the low
nibble of the geometry flags: nibble 8 gives a single `Polygon` whose rings
are the parts in order (never a multi-polygon); any other nibble gives a
`LineString` when there is exactly one part and otherwise a
`MultiLineString` with one line per part, in part order. -/
theorem geometry_type_assembly :
    ∀ (cs : CoordinateSystem) (blob : List ℕ) (pc : ℕ) (g : Geometry),
      decode_complex cs blob pc = .ok g →
      ∃ parts,
        (decodeComplexState cs blob pc).map (fun fs => fs.2.parts) = .ok parts ∧
        (geomFlagsOf blob &&& 0x0F = 8 → g = .polygon parts) ∧
        (geomFlagsOf blob &&& 0x0F ≠ 8 →
          (parts.length = 1 → g = .linestring (parts.headD [])) ∧
          (parts.length ≠ 1 → g = .multilinestring parts)) := by
  intro cs blob pc g h
  unfold decode_complex at h
  cases hst : decodeComplexState cs blob pc with
  | error e =>
    rw [hst] at h
    exact absurd h (by simp [Except.map])
  | ok fs =>
    rw [hst] at h
    simp only [Except.map, Except.ok.injEq] at h
    have hflags := decodeComplexState_flags cs blob pc fs hst
    refine ⟨fs.2.parts, by simp [hst, Except.map], ?_, ?_⟩
    · intro h8
      rw [← h, assembleGeometry, hflags, if_pos h8]
    · intro h8
      constructor
      · intro h1
        rw [← h, assembleGeometry, hflags, if_neg h8, if_pos h1]
      · intro h1
        rw [← h, assembleGeometry, hflags, if_neg h8, if_neg h1]

/-- Witness for `geometry_type_assembly` on the concrete polygon fixture. -/
theorem geometry_type_assembly_witness :
    ∃ parts,
      (decodeComplexState defaultCS polyBlob 10).map (fun fs => fs.2.parts) =
        .ok parts ∧
      (geomFlagsOf polyBlob &&& 0x0F = 8 →
        (decode_complex defaultCS polyBlob 10).toOption.getD (.point 0 0) =
          .polygon parts) ∧
      (geomFlagsOf polyBlob &&& 0x0F ≠ 8 →
        ((parts.length = 1 →
          (decode_complex defaultCS polyBlob 10).toOption.getD (.point 0 0) =
            .linestring (parts.headD [])) ∧
         (parts.length ≠ 1 →
          (decode_complex defaultCS polyBlob 10).toOption.getD (.point 0 0) =
            .multilinestring parts))) :=
  geometry_type_assembly defaultCS polyBlob 10 _
    (by
      simp +decide [decode_complex, decodeComplexState, partInfoLoop, polyBlob]
      rfl)

/-! ## C4: the consecutive-absolute part-boundary mechanism -/

/-- C4.  In the coordinate-stream loop: an absolute pair arriving while an
absolute is pending closes the current part (the pending absolute is its
last point) and opens a new part whose first point is the new absolute; a
delta pair arriving while an absolute is pending keeps the part open — the
pending absolute is emitted into it and the delta is applied from the
absolute's raw value; and a pending absolute at the end of a part's stream
is flushed as its final point. -/
theorem absolute_reset_mechanism :
    ∀ (cs : CoordinateSystem) (v1 v2 : ℕ) (st : DecState) (p : ℚ × ℚ),
      (COORD_THRESHOLD < v1 → st.prev_was_absolute = true →
        st.pending_coord = some p →
        applyPair cs v1 v2 st =
          { st with
            curr_x := (v1 : ℤ), curr_y := (v2 : ℤ),
            parts := st.parts ++ [st.current_part ++ [p]],
            current_part := [raw_to_coord cs (v1 : ℤ) (v2 : ℤ)],
            pending_coord := none, prev_was_absolute := true }) ∧
      (¬ COORD_THRESHOLD < v1 → st.pending_coord = some p →
        applyPair cs v1 v2 st =
          { st with
            curr_x := st.curr_x + zigzag_decode v1,
            curr_y := st.curr_y + zigzag_decode v2,
            current_part := st.current_part ++
              [p, raw_to_coord cs (st.curr_x + zigzag_decode v1)
                (st.curr_y + zigzag_decode v2)],
            pending_coord := none, prev_was_absolute := false }) ∧
      (st.pending_coord = some p →
        flushPending st =
          { st with
            current_part := st.current_part ++ [p],
            pending_coord := none }) := by
  intro cs v1 v2 st p
  refine ⟨?_, ?_, ?_⟩
  · intro hv hprev hpend
    unfold applyPair
    rw [if_pos hv]
    rw [hprev, hpend]
    simp
  · intro hv hpend
    unfold applyPair
    rw [if_neg hv, hpend]
    simp
  · intro hpend
    unfold flushPending
    rw [hpend]

/-- Witness for `absolute_reset_mechanism` at a concrete state with a
pending absolute: an absolute pair above the threshold closes the part. -/
theorem absolute_reset_mechanism_witness :
    applyPair defaultCS 100000000001 7
        ⟨30, 5, 6, [(1, 2)], true, some (3, 4), [], 0⟩ =
      { (⟨30, 5, 6, [(1, 2)], true, some (3, 4), [], 0⟩ : DecState) with
        curr_x := ((100000000001 : ℕ) : ℤ)
        curr_y := ((7 : ℕ) : ℤ)
        parts := ([] : List (List (ℚ × ℚ))) ++ [[(1, 2)] ++ [(3, 4)]]
        current_part :=
          [raw_to_coord defaultCS ((100000000001 : ℕ) : ℤ) ((7 : ℕ) : ℤ)]
        pending_coord := none
        prev_was_absolute := true } :=
  (absolute_reset_mechanism defaultCS 100000000001 7
      ⟨30, 5, 6, [(1, 2)], true, some (3, 4), [], 0⟩ (3, 4)).1
    (by decide) rfl rfl

/-! ## C2: total decoded points versus the header count -/

/-- Points already committed to completed parts. -/
def partsTotal (st : DecState) : ℕ := (st.parts.map List.length).sum

/-- All points held by a loop state: completed parts, the current part, and
the one-slot pending buffer. -/
def partsSum (st : DecState) : ℕ :=
  partsTotal st + st.current_part.length +
    (if st.pending_coord.isSome then 1 else 0)

/-- A state reachable inside a part's pair loop: a pending absolute implies
the previous pair was absolute. -/
def pendOk (st : DecState) : Prop :=
  st.pending_coord.isSome = true → st.prev_was_absolute = true

theorem applyPair_counts (cs : CoordinateSystem) (v1 v2 : ℕ) (st : DecState)
    (hJ : pendOk st) :
    partsSum (applyPair cs v1 v2 st) = partsSum st + 1 ∧
    pendOk (applyPair cs v1 v2 st) ∧
    (applyPair cs v1 v2 st).pairs_read = st.pairs_read ∧
    (applyPair cs v1 v2 st).pos = st.pos := by
  unfold applyPair
  split
  · cases hp : st.pending_coord with
    | none =>
      cases hprev : st.prev_was_absolute <;>
        simp [hp, partsSum, partsTotal, pendOk]
    | some p =>
      cases hprev : st.prev_was_absolute with
      | false => exact absurd (hJ (by simp [hp])) (by simp [hprev])
      | true =>
        simp [hp, partsSum, partsTotal, pendOk]
        omega
  · cases hp : st.pending_coord with
    | none =>
      simp [hp, partsSum, partsTotal, pendOk]
      omega
    | some p =>
      simp [hp, partsSum, partsTotal, pendOk]
      omega

theorem coordStep_counts (cs : CoordinateSystem) (blob : List ℕ)
    (st : DecState) (hJ : pendOk st) :
    partsSum (coordStep cs blob st) = partsSum st + 1 ∧
    pendOk (coordStep cs blob st) ∧
    (coordStep cs blob st).pairs_read = st.pairs_read + 1 := by
  unfold coordStep
  have h := applyPair_counts cs (read_varint blob st.pos).1
    (read_varint blob (read_varint blob st.pos).2).1
    { st with
      pos := (read_varint blob (read_varint blob st.pos).2).2,
      pairs_read := st.pairs_read + 1 }
    (by simpa [pendOk] using hJ)
  refine ⟨?_, h.2.1, ?_⟩
  · rw [h.1]
    simp [partsSum, partsTotal]
  · rw [h.2.2.1]

theorem innerLoop_counts (cs : CoordinateSystem) (blob : List ℕ) :
    ∀ (n : ℕ) (st : DecState), pendOk st →
      partsSum (innerLoop cs blob n st) + st.pairs_read =
        partsSum st + (innerLoop cs blob n st).pairs_read ∧
      pendOk (innerLoop cs blob n st) := by
  intro n
  induction n with
  | zero => intro st hJ; exact ⟨rfl, hJ⟩
  | succ n ih =>
    intro st hJ
    unfold innerLoop
    split
    · exact ⟨rfl, hJ⟩
    · have hc := coordStep_counts cs blob st hJ
      have hi := ih (coordStep cs blob st) hc.2.1
      refine ⟨?_, hi.2⟩
      omega

theorem flushPending_counts (st : DecState) :
    partsSum (flushPending st) = partsSum st ∧
    (flushPending st).pending_coord = none ∧
    (flushPending st).pairs_read = st.pairs_read ∧
    (flushPending st).parts = st.parts := by
  unfold flushPending
  cases hp : st.pending_coord with
  | none => simp [partsSum, partsTotal, hp]
  | some p =>
    simp [partsSum, partsTotal, hp]
    omega

theorem commitPart_counts (st : DecState) (hpend : st.pending_coord = none) :
    partsTotal (commitPart st) = partsSum st ∧
    (commitPart st).current_part = [] ∧
    (commitPart st).pending_coord = none ∧
    (commitPart st).pairs_read = st.pairs_read := by
  unfold commitPart
  split
  · next hne =>
    simp [partsSum, partsTotal, hpend]
  · next hne =>
    simp only [ne_eq, not_not] at hne
    simp [partsSum, partsTotal, hpend, hne]

theorem initPart_counts (cs : CoordinateSystem) (is_first : Bool) (st : DecState)
    (hcur : st.current_part = []) :
    partsSum (initPart cs is_first st) =
      partsTotal st + (if is_first then 1 else 0) ∧
    pendOk (initPart cs is_first st) ∧
    (initPart cs is_first st).pairs_read = st.pairs_read ∧
    (initPart cs is_first st).parts = st.parts := by
  unfold initPart
  cases is_first <;> simp [partsSum, partsTotal, pendOk, hcur]

theorem runPart_counts (cs : CoordinateSystem) (blob : List ℕ)
    (is_first : Bool) (cnt : ℕ) (st : DecState)
    (hcur : st.current_part = []) :
    partsTotal (runPart cs blob is_first cnt st) + st.pairs_read =
      partsTotal st + (runPart cs blob is_first cnt st).pairs_read +
        (if is_first then 1 else 0) ∧
    (runPart cs blob is_first cnt st).current_part = [] ∧
    (runPart cs blob is_first cnt st).pending_coord = none := by
  unfold runPart
  have hinit := initPart_counts cs is_first st hcur
  have hloop := innerLoop_counts cs blob (if is_first then cnt - 1 else cnt)
    (initPart cs is_first st) hinit.2.1
  have hflush := flushPending_counts
    (innerLoop cs blob (if is_first then cnt - 1 else cnt) (initPart cs is_first st))
  have hcommit := commitPart_counts
    (flushPending (innerLoop cs blob (if is_first then cnt - 1 else cnt)
      (initPart cs is_first st)))
    hflush.2.1
  refine ⟨?_, hcommit.2.1, hcommit.2.2.1⟩
  rw [hcommit.1, hcommit.2.2.2, hflush.2.2.1, hflush.1]
  omega

theorem runAllParts_counts (cs : CoordinateSystem) (blob : List ℕ)
    (ppp : List ℕ) :
    ∀ (remaining idx : ℕ) (st : DecState), idx ≠ 0 → st.current_part = [] →
      partsTotal (runAllParts cs blob ppp idx remaining st) + st.pairs_read =
        partsTotal st + (runAllParts cs blob ppp idx remaining st).pairs_read ∧
      (runAllParts cs blob ppp idx remaining st).current_part = [] := by
  intro remaining
  induction remaining with
  | zero => intro idx st _ hcur; exact ⟨rfl, hcur⟩
  | succ r ih =>
    intro idx st hidx hcur
    unfold runAllParts
    have hbeq : (idx == 0) = false := by
      simp [hidx]
    rw [hbeq]
    have hrp := runPart_counts cs blob false (ppp.getD idx 0) st hcur
    have hih := ih (idx + 1) (runPart cs blob false (ppp.getD idx 0) st)
      (by omega) hrp.2.1
    simp only [Bool.false_eq_true, if_false] at hrp
    exact ⟨by omega, hih.2⟩

theorem selectPartStructure_fst_pos (P : List ℕ) (N : ℕ) :
    0 < (selectPartStructure P N).1 := by
  match P with
  | [] => exact Nat.one_pos
  | p0 :: rest =>
    simp only [selectPartStructure]
    split
    · next hyes =>
      split
      · exact hyes.1
      · exact Nat.one_pos
    · exact Nat.one_pos

theorem totalPoints_assemble (flags : ℕ) (parts : List (List (ℚ × ℚ))) :
    totalPoints (assembleGeometry flags parts) = (parts.map List.length).sum := by
  unfold assembleGeometry
  split
  · rfl
  · split
    · next h1 =>
      obtain ⟨l, hl⟩ := List.length_eq_one.mp h1
      simp [hl, totalPoints, partLengths]
    · rfl

/-- C2, counterexample.  The header of `truncBlob` declares three points but
its coordinate stream holds only two; `decode` still succeeds, with a
2-point `LineString`, so the sum of per-part point counts differs from the
header count. -/
theorem decode_sum_mismatch :
    (decode defaultCS truncBlob).map totalPoints = .ok 2 ∧
    pointCountOf truncBlob = 3 := by
  constructor
  · simp +decide [decode, decode_complex, decodeComplexState, partInfoLoop,
      truncBlob]
  · decide

/-- C2, amended.  When `decode` succeeds through the complex path, the sum
of per-part point counts of the result equals one plus the number of
coordinate varint pairs actually consumed from the blob (so it equals the
header count exactly when the stream supplies every requested pair and an
accepted part structure has a positive first count); a decoded 30-byte point
always counts exactly one point. -/
theorem decoded_points_counted :
    (∀ (cs : CoordinateSystem) (blob : List ℕ) (pc : ℕ) (fs : ℕ × DecState),
      decodeComplexState cs blob pc = .ok fs →
      totalPoints (assembleGeometry fs.1 fs.2.parts) = 1 + fs.2.pairs_read) ∧
    (∀ (cs : CoordinateSystem) (blob : List ℕ),
      totalPoints (decode_point cs blob) = 1) := by
  constructor
  · intro cs blob pc fs h
    unfold decodeComplexState at h
    cases hpl : partInfoLoop blob (bboxEndPos blob) [] with
    | error e =>
      rw [hpl] at h
      exact absurd h (by simp)
    | ok v =>
      rw [hpl] at h
      simp only [Except.ok.injEq] at h
      subst h
      simp only
      rw [totalPoints_assemble]
      obtain ⟨m, hm⟩ := Nat.exists_eq_add_of_lt
        (selectPartStructure_fst_pos v.1 pc)
      rw [hm]
      simp only [Nat.zero_add]
      unfold runAllParts
      rw [(by simp : ((0 : ℕ) == 0) = true)]
      have hrp := runPart_counts cs blob true
        ((selectPartStructure v.1 pc).2.getD 0 0)
        { pos := (read_varint blob v.2.2).2, curr_x := (v.2.1 : ℤ),
          curr_y := ((read_varint blob v.2.2).1 : ℤ),
          current_part := [], prev_was_absolute := false, pending_coord := none,
          parts := [], pairs_read := 0 }
        rfl
      set st1 := runPart cs blob true
        ((selectPartStructure v.1 pc).2.getD 0 0)
        { pos := (read_varint blob v.2.2).2, curr_x := (v.2.1 : ℤ),
          curr_y := ((read_varint blob v.2.2).1 : ℤ),
          current_part := [], prev_was_absolute := false, pending_coord := none,
          parts := [], pairs_read := 0 } with hst1
    -- after the first part, the remaining parts preserve the relation
      have hrest := runAllParts_counts cs blob (selectPartStructure v.1 pc).2
        m 1 st1 (by omega) hrp.2.1
      simp only [partsTotal, if_pos rfl, Nat.zero_add] at hrp hrest ⊢
      simp at hrp
      omega
  · intro cs blob
    rfl

/-- Witness for `decoded_points_counted` on the truncated fixture. -/
theorem decoded_points_counted_witness :
    totalPoints
      (assembleGeometry
        ((decodeComplexState defaultCS truncBlob 3).toOption.getD
          (0, ⟨0, 0, 0, [], false, none, [], 0⟩)).1
        ((decodeComplexState defaultCS truncBlob 3).toOption.getD
          (0, ⟨0, 0, 0, [], false, none, [], 0⟩)).2.parts) =
      1 + ((decodeComplexState defaultCS truncBlob 3).toOption.getD
        (0, ⟨0, 0, 0, [], false, none, [], 0⟩)).2.pairs_read :=
  decoded_points_counted.1 defaultCS truncBlob 3 _
    (by
      simp +decide [decodeComplexState, partInfoLoop, truncBlob]
      rfl)

/-! ## C5: declared part counts versus the decoded parts

To speak about the varint pairs a part consumes, the interleaved pair loop
is related to a pure fold over the greedily read pair list. -/

/-- Read up to `n` coordinate varint pairs starting at `pos`, with the same
early stop as the pair loop; returns the pairs and the final position. -/
def readPairs (blob : List ℕ) : ℕ → ℕ → List (ℕ × ℕ) × ℕ
  | 0, pos => ([], pos)
  | n + 1, pos =>
    if pos ≥ blob.length then ([], pos)
    else
      let r1 := read_varint blob pos
      let r2 := read_varint blob r1.2
      let rest := readPairs blob n r2.2
      ((r1.1, r2.1) :: rest.1, rest.2)

/-- Apply `applyPair` over a pair list. -/
def foldPairs (cs : CoordinateSystem) : List (ℕ × ℕ) → DecState → DecState
  | [], st => st
  | p :: rest, st => foldPairs cs rest (applyPair cs p.1 p.2 st)

theorem applyPair_pos_pairs (cs : CoordinateSystem) (v1 v2 : ℕ) (st : DecState) :
    (applyPair cs v1 v2 st).pos = st.pos ∧
    (applyPair cs v1 v2 st).pairs_read = st.pairs_read := by
  unfold applyPair
  split
  · cases hprev : st.prev_was_absolute <;> cases hp : st.pending_coord <;> simp
  · simp

theorem applyPair_set_pos_pairs (cs : CoordinateSystem) (v1 v2 : ℕ)
    (st : DecState) (p q : ℕ) :
    applyPair cs v1 v2 { st with pos := p, pairs_read := q } =
      { applyPair cs v1 v2 st with pos := p, pairs_read := q } := by
  unfold applyPair
  split
  · cases hprev : st.prev_was_absolute <;> cases hpc : st.pending_coord <;> simp
  · simp

theorem foldPairs_set_pos_pairs (cs : CoordinateSystem) :
    ∀ (l : List (ℕ × ℕ)) (st : DecState) (p q : ℕ),
      foldPairs cs l { st with pos := p, pairs_read := q } =
        { foldPairs cs l st with pos := p, pairs_read := q } := by
  intro l
  induction l with
  | nil => intro st p q; rfl
  | cons x rest ih =>
    intro st p q
    unfold foldPairs
    rw [applyPair_set_pos_pairs, ih]

/-- The interleaved pair loop equals the fold of `applyPair` over the
greedily read pair list, with the position and pair count updated to the
read's results. -/
theorem innerLoop_eq_foldPairs (cs : CoordinateSystem) (blob : List ℕ) :
    ∀ (n : ℕ) (st : DecState),
      innerLoop cs blob n st =
        { foldPairs cs (readPairs blob n st.pos).1 st with
          pos := (readPairs blob n st.pos).2,
          pairs_read := st.pairs_read + (readPairs blob n st.pos).1.length } := by
  intro n
  induction n with
  | zero => intro st; simp [innerLoop, readPairs, foldPairs]
  | succ n ih =>
    intro st
    unfold innerLoop readPairs
    split
    · next hpos =>
      simp [foldPairs]
    · next hpos =>
      simp only [foldPairs]
      rw [ih]
      unfold coordStep
      rw [applyPair_set_pos_pairs]
      simp only [foldPairs_set_pos_pairs]
      simp
      omega

/-- Is this varint pair an absolute reset?  (`v1 > COORD_THRESHOLD`.) -/
def isAbsPair (p : ℕ × ℕ) : Bool := decide (p.1 > COORD_THRESHOLD)

/-- Does the pair run start with an absolute reset? -/
def headAbs : List (ℕ × ℕ) → Bool
  | [] => false
  | p :: _ => isAbsPair p

/-- No two consecutive pairs of the run are both absolute resets. -/
def noConsecAbs : List (ℕ × ℕ) → Bool
  | [] => true
  | [_] => true
  | p :: q :: rest => (!(isAbsPair p && isAbsPair q)) && noConsecAbs (q :: rest)

theorem noConsecAbs_cons (p : ℕ × ℕ) (rest : List (ℕ × ℕ))
    (h : noConsecAbs (p :: rest) = true) :
    (isAbsPair p = true → headAbs rest = false) ∧ noConsecAbs rest = true := by
  cases rest with
  | nil => simp [headAbs, noConsecAbs]
  | cons q r =>
    simp only [noConsecAbs, Bool.and_eq_true, Bool.not_eq_true',
      Bool.and_eq_false_iff] at h
    constructor
    · intro hp
      simp only [headAbs]
      rcases h.1 with h1 | h1
      · exact absurd hp (by simp [h1])
      · exact h1
    · exact h.2

/-- Without consecutive absolutes (and none pending against the head), the
fold never closes a part: `parts` is untouched and the held point count
grows by exactly the number of pairs. -/
theorem foldPairs_no_split (cs : CoordinateSystem) :
    ∀ (l : List (ℕ × ℕ)) (st : DecState),
      pendOk st →
      noConsecAbs l = true →
      (st.pending_coord.isSome = true → headAbs l = false) →
      (foldPairs cs l st).parts = st.parts ∧
      (foldPairs cs l st).current_part.length +
          (if (foldPairs cs l st).pending_coord.isSome then 1 else 0) =
        st.current_part.length +
          (if st.pending_coord.isSome then 1 else 0) + l.length := by
  intro l
  induction l with
  | nil => intro st _ _ _; simp [foldPairs]
  | cons p rest ih =>
    intro st hJ hchain hhead
    have hcc := noConsecAbs_cons p rest hchain
    unfold foldPairs
    by_cases habs : isAbsPair p = true
    · have hpendnone : st.pending_coord = none := by
        cases hpc : st.pending_coord with
        | none => rfl
        | some c =>
          have := hhead (by simp [hpc])
          simp [headAbs, habs] at this
      have happ : applyPair cs p.1 p.2 st =
          { st with
            curr_x := (p.1 : ℤ), curr_y := (p.2 : ℤ),
            pending_coord := some (raw_to_coord cs p.1 p.2),
            prev_was_absolute := true } := by
        unfold applyPair
        rw [if_pos (by simpa [isAbsPair] using habs), hpendnone]
        cases st.prev_was_absolute <;> rfl
      rw [happ]
      have hres := ih { st with
          curr_x := (p.1 : ℤ), curr_y := (p.2 : ℤ),
          pending_coord := some (raw_to_coord cs p.1 p.2),
          prev_was_absolute := true }
        (by simp [pendOk]) hcc.2 (fun _ => hcc.1 habs)
      refine ⟨hres.1, ?_⟩
      rw [hres.2]
      simp [hpendnone]
      omega
    · have happ : applyPair cs p.1 p.2 st =
          { st with
            curr_x := st.curr_x + zigzag_decode p.1,
            curr_y := st.curr_y + zigzag_decode p.2,
            current_part :=
              (match st.pending_coord with
               | some c => st.current_part ++ [c]
               | none => st.current_part) ++
                [raw_to_coord cs (st.curr_x + zigzag_decode p.1)
                  (st.curr_y + zigzag_decode p.2)],
            pending_coord := none,
            prev_was_absolute := false } := by
        unfold applyPair
        rw [if_neg (by simpa [isAbsPair] using habs)]
      rw [happ]
      have hres := ih { st with
          curr_x := st.curr_x + zigzag_decode p.1,
          curr_y := st.curr_y + zigzag_decode p.2,
          current_part :=
            (match st.pending_coord with
             | some c => st.current_part ++ [c]
             | none => st.current_part) ++
              [raw_to_coord cs (st.curr_x + zigzag_decode p.1)
                (st.curr_y + zigzag_decode p.2)],
          pending_coord := none,
          prev_was_absolute := false }
        (by simp [pendOk]) hcc.2 (by simp)
      refine ⟨hres.1, ?_⟩
      rw [hres.2]
      cases hpc : st.pending_coord <;> simp [hpc] <;> omega

theorem flushPending_set_pos_pairs (st : DecState) (a b : ℕ) :
    flushPending { st with pos := a, pairs_read := b } =
      { flushPending st with pos := a, pairs_read := b } := by
  unfold flushPending
  cases hp : st.pending_coord <;> simp [hp]

theorem flushPending_fields (st : DecState) :
    (flushPending st).pos = st.pos ∧
    (flushPending st).parts = st.parts ∧
    (flushPending st).pending_coord = none ∧
    (flushPending st).current_part.length =
      st.current_part.length + (if st.pending_coord.isSome then 1 else 0) := by
  unfold flushPending
  cases hp : st.pending_coord <;> simp [hp]

theorem commitPart_fields (st : DecState) (hne : st.current_part ≠ []) :
    (commitPart st).parts = st.parts ++ [st.current_part] ∧
    (commitPart st).current_part = [] ∧
    (commitPart st).pos = st.pos := by
  unfold commitPart
  rw [if_pos hne]
  exact ⟨rfl, rfl, rfl⟩

theorem initPart_fields (cs : CoordinateSystem) (is_first : Bool) (st : DecState) :
    (initPart cs is_first st).pos = st.pos ∧
    (initPart cs is_first st).parts = st.parts ∧
    (initPart cs is_first st).pending_coord = none ∧
    (initPart cs is_first st).current_part.length =
      (if is_first then 1 else 0) ∧
    pendOk (initPart cs is_first st) := by
  cases is_first <;> simp [initPart, pendOk]

/-- When a part's pair run is fully available and holds no two consecutive
absolute pairs, `runPart` appends exactly one new part, of exactly the
declared point count, and leaves the position at the end of the run. -/
theorem runPart_exact (cs : CoordinateSystem) (blob : List ℕ) (is_first : Bool)
    (cnt : ℕ) (st : DecState) (hcnt : 0 < cnt)
    (hfull : (readPairs blob (if is_first then cnt - 1 else cnt) st.pos).1.length
      = (if is_first then cnt - 1 else cnt))
    (hsep : noConsecAbs
      (readPairs blob (if is_first then cnt - 1 else cnt) st.pos).1 = true) :
    ∃ part : List (ℚ × ℚ),
      (runPart cs blob is_first cnt st).parts = st.parts ++ [part] ∧
      part.length = cnt ∧
      (runPart cs blob is_first cnt st).current_part = [] ∧
      (runPart cs blob is_first cnt st).pos =
        (readPairs blob (if is_first then cnt - 1 else cnt) st.pos).2 := by
  have hinit := initPart_fields cs is_first st
  unfold runPart
  rw [innerLoop_eq_foldPairs, hinit.1]
  rw [flushPending_set_pos_pairs]
  have hfold := foldPairs_no_split cs
    (readPairs blob (if is_first then cnt - 1 else cnt) st.pos).1
    (initPart cs is_first st) hinit.2.2.2.2 hsep
    (by simp [hinit.2.2.1])
  have hflush := flushPending_fields
    (foldPairs cs (readPairs blob (if is_first then cnt - 1 else cnt) st.pos).1
      (initPart cs is_first st))
  have hcurlen : (flushPending
      (foldPairs cs (readPairs blob (if is_first then cnt - 1 else cnt) st.pos).1
        (initPart cs is_first st))).current_part.length = cnt := by
    rw [hflush.2.2.2, hfold.2, hinit.2.2.1, hinit.2.2.2.1, hfull]
    cases is_first <;> simp <;> omega
  have hne : (flushPending
      (foldPairs cs (readPairs blob (if is_first then cnt - 1 else cnt) st.pos).1
        (initPart cs is_first st))).current_part ≠ [] := by
    intro hnil
    rw [hnil] at hcurlen
    simp at hcurlen
    omega
  have hcommitset : commitPart
      { flushPending (foldPairs cs
          (readPairs blob (if is_first then cnt - 1 else cnt) st.pos).1
          (initPart cs is_first st)) with
        pos := (readPairs blob (if is_first then cnt - 1 else cnt) st.pos).2,
        pairs_read := (initPart cs is_first st).pairs_read +
          (readPairs blob (if is_first then cnt - 1 else cnt) st.pos).1.length } =
      { commitPart (flushPending (foldPairs cs
          (readPairs blob (if is_first then cnt - 1 else cnt) st.pos).1
          (initPart cs is_first st))) with
        pos := (readPairs blob (if is_first then cnt - 1 else cnt) st.pos).2,
        pairs_read := (initPart cs is_first st).pairs_read +
          (readPairs blob (if is_first then cnt - 1 else cnt) st.pos).1.length } := by
    unfold commitPart
    rw [if_pos (by simpa using hne), if_pos hne]
  rw [hcommitset]
  have hcommit := commitPart_fields _ hne
  refine ⟨(flushPending (foldPairs cs
      (readPairs blob (if is_first then cnt - 1 else cnt) st.pos).1
      (initPart cs is_first st))).current_part, ?_, hcurlen, ?_, ?_⟩
  · show (commitPart _).parts = _
    rw [hcommit.1, hflush.2.1, hfold.1, hinit.2.1]
  · show (commitPart _).current_part = _
    rw [hcommit.2.1]
  · rfl

/-- Well-formedness of the coordinate runs for a declared count list: every
count is positive, every run is fully available, and no run holds two
consecutive absolute pairs. -/
def partsWellFormed (blob : List ℕ) : Bool → ℕ → List ℕ → Bool
  | _, _, [] => true
  | first, pos, c :: rest =>
    let n := if first then c - 1 else c
    let rp := readPairs blob n pos
    decide (0 < c) && decide (rp.1.length = n) && noConsecAbs rp.1 &&
      partsWellFormed blob false rp.2 rest

theorem drop_cons_getD (counts : List ℕ) (idx : ℕ) (c : ℕ) (L : List ℕ)
    (h : counts.drop idx = c :: L) :
    counts.getD idx 0 = c ∧ counts.drop (idx + 1) = L := by
  constructor
  · have h0 : counts[idx]? = some c := by
      have := List.getElem?_drop counts idx 0
      rw [h] at this
      simpa using this.symm
    simp [List.getD, h0]
  · have : counts.drop (idx + 1) = (counts.drop idx).drop 1 := by
      rw [List.drop_drop]
    rw [this, h]
    rfl

theorem runAllParts_parts (cs : CoordinateSystem) (blob : List ℕ)
    (counts : List ℕ) :
    ∀ (L : List ℕ) (idx : ℕ) (st : DecState),
      counts.drop idx = L →
      st.current_part = [] →
      partsWellFormed blob (idx == 0) st.pos L = true →
      ∃ newparts,
        (runAllParts cs blob counts idx L.length st).parts =
          st.parts ++ newparts ∧
        newparts.map List.length = L ∧
        (runAllParts cs blob counts idx L.length st).current_part = [] := by
  intro L
  induction L with
  | nil =>
    intro idx st _ hcur _
    exact ⟨[], by simp [runAllParts], rfl, hcur⟩
  | cons c L' ih =>
    intro idx st hdrop hcur hwf
    obtain ⟨hgetD, hdrop'⟩ := drop_cons_getD counts idx c L' hdrop
    simp only [partsWellFormed, Bool.and_eq_true, decide_eq_true_eq] at hwf
    obtain ⟨⟨⟨hpos, hfull⟩, hsep⟩, hrest⟩ := hwf
    have hrp := runPart_exact cs blob (idx == 0) c st hpos
      (by cases hbe : (idx == 0) <;> simp [hbe] at hfull ⊢ <;> exact hfull)
      (by cases hbe : (idx == 0) <;> simp [hbe] at hsep ⊢ <;> exact hsep)
    obtain ⟨part, hparts, hlen, hcur2, hpos2⟩ := hrp
    have hstep : runAllParts cs blob counts idx (c :: L').length st =
        runAllParts cs blob counts (idx + 1) L'.length
          (runPart cs blob (idx == 0) c st) := by
      show runAllParts cs blob counts (idx + 1) L'.length
          (runPart cs blob (idx == 0) (counts.getD idx 0) st) =
        runAllParts cs blob counts (idx + 1) L'.length
          (runPart cs blob (idx == 0) c st)
      rw [hgetD]
    rw [hstep]
    have hih := ih (idx + 1)
      (runPart cs blob (idx == 0) c st) hdrop' hcur2
      (by
        rw [hpos2]
        have : ((idx + 1) == 0) = false := by simp
        rw [this]
        cases hbe : (idx == 0) <;> simp [hbe] at hrest ⊢ <;> exact hrest)
    obtain ⟨newparts, hnp, hnplen, hnpcur⟩ := hih
    refine ⟨part :: newparts, ?_, by simp [hnplen, hlen], hnpcur⟩
    rw [hnp, hparts]
    simp

theorem assemble_lengths (flags : ℕ) (parts : List (List (ℚ × ℚ))) :
    partLengths (assembleGeometry flags parts) = parts.map List.length ∧
    numParts (assembleGeometry flags parts) = parts.length := by
  unfold assembleGeometry
  split
  · exact ⟨rfl, rfl⟩
  · split
    · next h1 =>
      obtain ⟨l, hl⟩ := List.length_eq_one.mp h1
      simp [hl, partLengths, numParts]
    · exact ⟨rfl, rfl⟩

/-- C5, amended.  When the decoder selects `M` parts with counts
`[c₁, …, c_M]`, every declared count is positive, each part's pair run is
fully available, and no run holds two consecutive absolute pairs (a marker
that closes a part early even under a declared structure), the decoded
geometry has exactly `M` parts and part `i` holds exactly `cᵢ` points; the
spec's `N = 10` polygon example with prefix `[2, 5, 5, 0]` is of this
shape. -/
theorem declared_parts_respected :
    ∀ (cs : CoordinateSystem) (blob : List ℕ) (N : ℕ) (pinfo : List ℕ)
      (xr pos0 M : ℕ) (counts : List ℕ),
      partInfoLoop blob (bboxEndPos blob) [] = .ok (pinfo, xr, pos0) →
      selectPartStructure pinfo N = (M, counts) →
      counts.length = M →
      partsWellFormed blob true (read_varint blob pos0).2 counts = true →
      ∃ g, decode_complex cs blob N = .ok g ∧ numParts g = M ∧
        partLengths g = counts := by
  intro cs blob N pinfo xr pos0 M counts hpl hsel hlen hwf
  unfold decode_complex decodeComplexState
  rw [hpl]
  simp only [Except.map, Except.ok.injEq]
  rw [hsel]
  have hrap := runAllParts_parts cs blob counts counts 0
    { pos := (read_varint blob pos0).2, curr_x := (xr : ℤ),
      curr_y := ((read_varint blob pos0).1 : ℤ),
      current_part := [], prev_was_absolute := false, pending_coord := none,
      parts := [], pairs_read := 0 }
    (by rfl) rfl (by simpa using hwf)
  obtain ⟨newparts, hnp, hnplen, _⟩ := hrap
  rw [hlen] at hnp
  refine ⟨assembleGeometry (geomFlagsOf blob) newparts, ?_, ?_, ?_⟩
  · simp only at hnp ⊢
    rw [hnp]
    simp
  · rw [(assemble_lengths (geomFlagsOf blob) newparts).2]
    have := congrArg List.length hnplen
    simpa [hlen] using this
  · rw [(assemble_lengths (geomFlagsOf blob) newparts).1, hnplen]

/-- C5, counterexample.  `splitBlob`'s part-info prefix `[2, 2, 2]` is
accepted (`M = 2`, counts `[2, 2]`, sum `= N = 4`), yet two consecutive
absolute pairs inside the second declared part close it early: the decoder
returns three parts of sizes `[2, 1, 1]` instead of two parts of two
points. -/
theorem declared_parts_overridden :
    selectPartStructure [2, 2, 2] 4 = (2, [2, 2]) ∧
    pointCountOf splitBlob = 4 ∧
    (decode defaultCS splitBlob).map numParts = .ok 3 ∧
    (decode defaultCS splitBlob).map partLengths = .ok [2, 1, 1] := by
  refine ⟨by decide, by decide, ?_, ?_⟩
  · simp +decide [decode, decode_complex, decodeComplexState, partInfoLoop,
      splitBlob]
  · simp +decide [decode, decode_complex, decodeComplexState, partInfoLoop,
      splitBlob]

/-- Witness for `declared_parts_respected` on the spec's two-ring polygon
fixture. -/
theorem declared_parts_respected_witness :
    ∃ g, decode_complex defaultCS polyBlob 10 = .ok g ∧ numParts g = 2 ∧
      partLengths g = [5, 5] :=
  declared_parts_respected defaultCS polyBlob 10 [2, 5, 5, 0]
    100000000001 24 2 [5, 5]
    (by
      rw [partInfoLoop]
      simp +decide only []
      rw [partInfoLoop]
      simp +decide only []
      rw [partInfoLoop]
      simp +decide only []
      rw [partInfoLoop]
      simp +decide only []
      rw [partInfoLoop]
      simp +decide only [])
    (by decide) (by decide) (by decide)

/-! ## C10: the two decoder revisions -/

/-- C10, counterexample.  On `refreshBlob` (an absolute reset followed by a
delta) both decoders succeed but return structurally different geometries:
the packaged decoder treats the single absolute as an in-part coordinate
refresh (one part), the standalone revision starts a new part at every
absolute (two parts). -/
theorem decoder_revisions_disagree :
    (decode defaultCS refreshBlob).map numParts = .ok 1 ∧
    (std_decode defaultCS refreshBlob).map numParts = .ok 2 := by
  constructor
  · simp +decide [decode, decode_complex, decodeComplexState, partInfoLoop,
      refreshBlob]
  · simp +decide [std_decode, std_decode_complex, stdPartInfoLoop,
      refreshBlob]

/-- C10, amended.  The two decoder revisions perform identical header
validation and point decoding: they agree (same error, or same geometry) on
every blob that is shorter than 8 bytes, has a wrong magic, has a zero point
count, or takes the 30-byte single-point path.  On complex blobs they can
disagree (coordinate refreshes, declared part structures and the unassigned
`x_raw` are all handled differently). -/
theorem decoder_revisions_agree_on_header_and_points :
    ∀ (cs : CoordinateSystem) (blob : List ℕ),
      blob.length < 8 ∨ blob.take 4 ≠ MAGIC ∨ pointCountOf blob = 0 ∨
        (pointCountOf blob = 1 ∧ blob.length = 30) →
      decode cs blob = std_decode cs blob := by
  intro cs blob h
  by_cases h1 : blob.length < 8
  · simp [decode, std_decode, h1]
  · by_cases h2 : blob.take 4 ≠ MAGIC
    · simp [decode, std_decode, h1, h2]
    · by_cases h3 : pointCountOf blob = 0
      · simp [decode, std_decode, h1, h2, h3]
      · have h4 : pointCountOf blob = 1 ∧ blob.length = 30 := by
          rcases h with h | h | h | h
          · exact absurd h h1
          · exact absurd h h2
          · exact absurd h h3
          · exact h
        simp [decode, std_decode, h1, h2, h3, h4,
          decode_point, std_decode_point]

/-- Witness for `decoder_revisions_agree_on_header_and_points` on the
30-byte point fixture. -/
theorem decoder_revisions_agree_witness :
    decode defaultCS pointBlob = std_decode defaultCS pointBlob :=
  decoder_revisions_agree_on_header_and_points defaultCS pointBlob
    (Or.inr (Or.inr (Or.inr ⟨by decide, by decide⟩)))

/-! ## C9: WKB round trip -/

theorem parseU32_round (n : ℕ) (hn : n < 4294967296) (rest : List ℕ) :
    parseU32 (u32Bytes false n ++ rest) = some (n, rest) := by
  simp only [u32Bytes, bytesOrd, Bool.false_eq_true, if_false, leBytes,
    List.cons_append, List.nil_append, parseU32, Option.some.injEq, Prod.mk.injEq]
  exact ⟨by omega, trivial⟩

theorem digits8_eq (n : ℕ) (h : n < 18446744073709551616) :
    n % 256 + 256 * (n / 256 % 256 + 256 * (n / 256 / 256 % 256 + 256 *
      (n / 256 / 256 / 256 % 256 + 256 * (n / 256 / 256 / 256 / 256 % 256 +
      256 * (n / 256 / 256 / 256 / 256 / 256 % 256 + 256 *
      (n / 256 / 256 / 256 / 256 / 256 / 256 % 256 + 256 *
      (n / 256 / 256 / 256 / 256 / 256 / 256 / 256 % 256))))))) = n := by
  omega

theorem parseF64_round (d : F64) (rest : List ℕ) :
    parseF64 (packF64 false d ++ rest) = some (d, rest) := by
  have hlt := d.isLt
  simp only [packF64, bytesOrd, Bool.false_eq_true, if_false, leBytes,
    List.cons_append, List.nil_append, parseF64]
  rw [digits8_eq d.val hlt, dif_pos hlt]

theorem parseHeader_round (t : ℕ) (ht : t < 4294967296) (rest : List ℕ) :
    parseHeader (1 :: (u32Bytes false t ++ rest)) =
      some ((decide (t &&& 0x80000000 ≠ 0), t &&& 0x7FFFFFFF), rest) := by
  simp only [parseHeader, parseU32_round t ht rest]
  rfl

theorem parsePoints_pairs (pts : List (F64 × F64)) (rest : List ℕ) :
    parsePoints false pts.length (coordPairs false pts ++ rest) =
      some ((pts, []), rest) := by
  induction pts with
  | nil => simp [coordPairs, parsePoints]
  | cons p ps ih =>
    simp only [coordPairs, List.map_cons, List.flatten_cons,
      List.append_assoc] at ih ⊢
    show parsePoints false (ps.length + 1) _ = _
    simp only [parsePoints, List.append_assoc, parseF64_round,
      Option.some_bind, Bool.false_eq_true, if_false]
    rw [ih]
    rfl

theorem parsePoints_triples (pts : List (F64 × F64)) :
    ∀ (zs : List F64), zs.length = pts.length →
    ∀ (bs rest : List ℕ), coordTriples false pts zs = some bs →
      parsePoints true pts.length (bs ++ rest) = some ((pts, zs), rest) := by
  induction pts with
  | nil =>
    intro zs hlen bs rest hbs
    simp at hlen
    subst hlen
    simp [coordTriples] at hbs
    subst hbs
    simp [parsePoints]
  | cons p ps ih =>
    intro zs hlen bs rest hbs
    cases zs with
    | nil => simp at hlen
    | cons z zrest =>
      simp only [coordTriples, Option.map_eq_some'] at hbs
      obtain ⟨tailbs, htail, hbs⟩ := hbs
      subst hbs
      show parsePoints true (ps.length + 1) _ = _
      simp only [parsePoints, List.append_assoc, parseF64_round,
        Option.some_bind, if_true]
      rw [ih zrest (by simpa using hlen) tailbs rest htail]
      rfl

theorem parseRings_noZ :
    ∀ (rings : List (List (F64 × F64))) (bs rest : List ℕ),
      ringsBytesNoZ false rings = some bs →
      ∃ zjunk, parseRings false rings.length (bs ++ rest) =
        some ((rings, zjunk), rest) := by
  intro rings
  induction rings with
  | nil =>
    intro bs rest hbs
    simp [ringsBytesNoZ] at hbs
    subst hbs
    exact ⟨[], by simp [parseRings]⟩
  | cons r rs ih =>
    intro bs rest hbs
    simp only [ringsBytesNoZ, Option.bind_eq_some', Option.map_eq_some'] at hbs
    obtain ⟨cnt, hcnt, tailbs, htail, hbs⟩ := hbs
    subst hbs
    unfold packCount at hcnt
    split at hcnt
    · next h32 =>
      simp only [Option.some.injEq] at hcnt
      subst hcnt
      obtain ⟨zjunk, hih⟩ := ih tailbs rest htail
      refine ⟨[] :: zjunk, ?_⟩
      show parseRings false (rs.length + 1) _ = _
      simp only [parseRings, List.append_assoc, parseU32_round r.length h32,
        Option.some_bind]
      rw [parsePoints_pairs r (tailbs ++ rest)]
      simp only [Option.some_bind]
      rw [hih]
      simp
    · exact absurd hcnt (by simp)

theorem parseRings_Z :
    ∀ (rings : List (List (F64 × F64))) (zl : List (List F64)),
      List.Forall₂ (fun r (z : List F64) => z.length = r.length) rings zl →
      ∀ (bs rest : List ℕ),
        ringsBytesZ false rings zl = some bs →
        parseRings true rings.length (bs ++ rest) = some ((rings, zl), rest) := by
  intro rings zl hfa
  induction hfa with
  | nil =>
    intro bs rest hbs
    simp [ringsBytesZ] at hbs
    subst hbs
    simp [parseRings]
  | cons hrz hfa ih =>
    next r z rs zs =>
    intro bs rest hbs
    simp only [ringsBytesZ, Option.bind_eq_some', Option.map_eq_some'] at hbs
    obtain ⟨cnt, hcnt, tri, htri, tailbs, htail, hbs⟩ := hbs
    subst hbs
    unfold packCount at hcnt
    split at hcnt
    · next h32 =>
      simp only [Option.some.injEq] at hcnt
      subst hcnt
      show parseRings true (rs.length + 1) _ = _
      simp only [parseRings, List.append_assoc, parseU32_round r.length h32,
        Option.some_bind]
      rw [show tri ++ (tailbs ++ rest) = tri ++ (tailbs ++ rest) from rfl,
        parsePoints_triples r z hrz tri (tailbs ++ rest) htri]
      simp only [Option.some_bind]
      rw [ih tailbs rest htail]
      simp
    · exact absurd hcnt (by simp)

theorem parsePointComp_round (x y : F64) (z : Option F64) (rest : List ℕ) :
    parsePointComp (wkbPointBytes false x y z ++ rest) = some ((x, y, z), rest) := by
  cases z with
  | none =>
    have hh := parseHeader_round 1 (by norm_num)
      (packF64 false x ++ (packF64 false y ++ rest))
    simp only [wkbPointBytes, Option.isSome_none, Bool.false_eq_true, if_false,
      Nat.or_zero, boFlag, List.append_nil, List.cons_append, List.append_assoc]
    unfold parsePointComp
    rw [hh]
    simp +decide [parseF64_round, Option.some_bind]
  | some zv =>
    have hh := parseHeader_round (1 ||| 0x80000000) (by decide)
      (packF64 false x ++ (packF64 false y ++ (packF64 false zv ++ rest)))
    simp only [wkbPointBytes, Option.isSome_some, if_true, boFlag,
      Bool.false_eq_true, if_false, List.cons_append, List.append_assoc]
    unfold parsePointComp
    rw [hh]
    simp +decide [parseF64_round, Option.some_bind]

theorem parseLineComp_round (pts : List (F64 × F64)) (zv : Option (List F64))
    (hinv : lineInv pts zv) (bs rest : List ℕ)
    (hbs : wkbLineStringBytes false pts zv = some bs) :
    parseLineComp (bs ++ rest) = some ((pts, zv), rest) := by
  cases zv with
  | none =>
    simp only [wkbLineStringBytes, lineHasZ, Bool.false_eq_true, if_false,
      Option.bind_eq_some', Option.map_eq_some', boFlag] at hbs
    obtain ⟨cnt, hcnt, coords, hcoords, hbs⟩ := hbs
    simp only [Option.some.injEq] at hcoords
    unfold packCount at hcnt
    split at hcnt
    · next h32 =>
      simp only [Option.some.injEq] at hcnt
      subst hcnt hcoords hbs
      have hh := parseHeader_round (2 ||| 0) (by decide)
        (u32Bytes false pts.length ++ (coordPairs false pts ++ rest))
      unfold parseLineComp
      simp only [List.cons_append, List.append_assoc] at hh ⊢
      rw [hh]
      simp +decide [parseU32_round pts.length h32, parsePoints_pairs pts rest,
        Option.some_bind]
    · exact absurd hcnt (by simp)
  | some l =>
    have hl : l ≠ [] := by
      intro hnil
      rcases hinv with ⟨hpts, hlen⟩
      simp only [hnil] at hlen
      exact hpts (by
        cases pts with
        | nil => rfl
        | cons a b => simp at hlen)
    have hz : lineHasZ (some l) = true := by simp [lineHasZ, hl]
    simp only [wkbLineStringBytes, hz, if_true, Option.bind_eq_some',
      Option.map_eq_some', boFlag, Bool.false_eq_true, if_false] at hbs
    obtain ⟨cnt, hcnt, coords, hcoords, hbs⟩ := hbs
    unfold packCount at hcnt
    split at hcnt
    · next h32 =>
      simp only [Option.some.injEq] at hcnt
      subst hcnt hbs
      have hh := parseHeader_round (2 ||| 0x80000000) (by decide)
        (u32Bytes false pts.length ++ (coords ++ rest))
      unfold parseLineComp
      simp only [List.cons_append, List.append_assoc] at hh ⊢
      rw [hh]
      simp +decide [parseU32_round pts.length h32,
        parsePoints_triples pts l hinv.2 coords rest hcoords,
        Option.some_bind]
    · exact absurd hcnt (by simp)

theorem parsePolyComp_round (rings : List (List (F64 × F64)))
    (zv : Option (List (List F64))) (hinv : polyInv rings zv)
    (bs rest : List ℕ) (hbs : wkbPolygonBytes false rings zv = some bs) :
    parsePolyComp (bs ++ rest) = some ((rings, zv), rest) := by
  cases zv with
  | none =>
    simp only [wkbPolygonBytes, polyHasZ, Bool.false_eq_true, if_false,
      Option.bind_eq_some', Option.map_eq_some', boFlag] at hbs
    obtain ⟨cnt, hcnt, body, hbody, hbs⟩ := hbs
    unfold packCount at hcnt
    split at hcnt
    · next h32 =>
      simp only [Option.some.injEq] at hcnt
      subst hcnt hbs
      obtain ⟨zjunk, hparse⟩ := parseRings_noZ rings body rest hbody
      have hh := parseHeader_round (3 ||| 0) (by decide)
        (u32Bytes false rings.length ++ (body ++ rest))
      unfold parsePolyComp
      simp only [List.cons_append, List.append_assoc] at hh ⊢
      rw [hh]
      simp +decide [parseU32_round rings.length h32, hparse, Option.some_bind]
    · exact absurd hcnt (by simp)
  | some zl =>
    have hfa : List.Forall₂ (fun r (z : List F64) => z.length = r.length)
        rings zl := hinv.2.2
    have hzl : zl ≠ [] := by
      intro hnil
      subst hnil
      cases hfa
      exact hinv.1 rfl
    have hz : polyHasZ (some zl) = true := by simp [polyHasZ, hzl]
    simp only [wkbPolygonBytes, hz, if_true, Option.bind_eq_some',
      Option.map_eq_some', boFlag, Bool.false_eq_true, if_false] at hbs
    obtain ⟨cnt, hcnt, body, hbody, hbs⟩ := hbs
    unfold packCount at hcnt
    split at hcnt
    · next h32 =>
      simp only [Option.some.injEq] at hcnt
      subst hcnt hbs
      have hh := parseHeader_round (3 ||| 0x80000000) (by decide)
        (u32Bytes false rings.length ++ (body ++ rest))
      unfold parsePolyComp
      simp only [List.cons_append, List.append_assoc] at hh ⊢
      rw [hh]
      simp +decide [parseU32_round rings.length h32,
        parseRings_Z rings zl hfa body rest hbody, Option.some_bind]
    · exact absurd hcnt (by simp)

theorem parseNComps_points (points : List (F64 × F64 × Option F64)) :
    ∀ (rest : List ℕ),
      parseNComps parsePointComp points.length
        ((points.map fun p => wkbPointBytes false p.1 p.2.1 p.2.2).flatten
          ++ rest) = some (points, rest) := by
  induction points with
  | nil => intro rest; simp [parseNComps]
  | cons p ps ih =>
    intro rest
    simp only [List.map_cons, List.flatten_cons, List.length_cons,
      List.append_assoc]
    show parseNComps _ (ps.length + 1) _ = _
    simp only [parseNComps, parsePointComp_round, Option.some_bind]
    rw [ih rest]
    rfl

theorem parseNComps_lines (lines : List (List (F64 × F64) × Option (List F64))) :
    (∀ l ∈ lines, lineInv l.1 l.2) →
    ∀ (bss : List (List ℕ)) (rest : List ℕ),
      optList (fun l => wkbLineStringBytes false l.1 l.2) lines = some bss →
      parseNComps parseLineComp lines.length (bss.flatten ++ rest) =
        some (lines, rest) := by
  induction lines with
  | nil =>
    intro _ bss rest hbss
    simp [optList] at hbss
    subst hbss
    simp [parseNComps]
  | cons l ls ih =>
    intro hinv bss rest hbss
    simp only [optList, Option.bind_eq_some', Option.map_eq_some'] at hbss
    obtain ⟨b, hb, bs', hbs', hbss⟩ := hbss
    subst hbss
    simp only [List.flatten_cons, List.length_cons, List.append_assoc]
    show parseNComps _ (ls.length + 1) _ = _
    simp only [parseNComps]
    rw [parseLineComp_round l.1 l.2 (hinv l (by simp)) b _ hb,
      Option.some_bind]
    rw [ih (fun x hx => hinv x (by simp [hx])) bs' rest hbs']
    rfl

theorem parseNComps_polys
    (polys : List (List (List (F64 × F64)) × Option (List (List F64)))) :
    (∀ p ∈ polys, polyInv p.1 p.2) →
    ∀ (bss : List (List ℕ)) (rest : List ℕ),
      optList (fun p => wkbPolygonBytes false p.1 p.2) polys = some bss →
      parseNComps parsePolyComp polys.length (bss.flatten ++ rest) =
        some (polys, rest) := by
  induction polys with
  | nil =>
    intro _ bss rest hbss
    simp [optList] at hbss
    subst hbss
    simp [parseNComps]
  | cons p ps ih =>
    intro hinv bss rest hbss
    simp only [optList, Option.bind_eq_some', Option.map_eq_some'] at hbss
    obtain ⟨b, hb, bs', hbs', hbss⟩ := hbss
    subst hbss
    simp only [List.flatten_cons, List.length_cons, List.append_assoc]
    show parseNComps _ (ps.length + 1) _ = _
    simp only [parseNComps]
    rw [parsePolyComp_round p.1 p.2 (hinv p (by simp)) b _ hb,
      Option.some_bind]
    rw [ih (fun x hx => hinv x (by simp [hx])) bs' rest hbs']
    rfl

theorem parseHeader_round_t (t : ℕ) (hz : Bool) (base : ℕ)
    (ht : t < 4294967296) (hhz : decide (t &&& 0x80000000 ≠ 0) = hz)
    (hbase : t &&& 0x7FFFFFFF = base) (rest : List ℕ) :
    parseHeader (1 :: (u32Bytes false t ++ rest)) = some ((hz, base), rest) := by
  rw [parseHeader_round t ht, hhz, hbase]

/-- Round trip for a point component at the top level. -/
theorem roundtripPoint (x y : F64) (z : Option F64) (bs rest : List ℕ)
    (henc : to_wkb false (.point x y z) = some bs) :
    parseWkb (bs ++ rest) = some (.point x y z, rest) := by
  simp only [to_wkb, Option.some.injEq] at henc
  subst henc
  unfold parseWkb
  cases z with
  | none =>
    have hh : parseHeader (wkbPointBytes false x y none ++ rest) =
        some ((false, 1), packF64 false x ++ (packF64 false y ++ rest)) := by
      rw [show wkbPointBytes false x y none ++ rest =
        1 :: (u32Bytes false (1 ||| 0) ++
          (packF64 false x ++ (packF64 false y ++ rest))) from by
        simp [wkbPointBytes, boFlag]]
      exact parseHeader_round_t (1 ||| 0) false 1 (by decide) (by decide)
        (by decide) _
    rw [hh]
    rw [Option.some_bind]
    simp only [if_pos]
    rw [parsePointComp_round x y none rest]
    rfl
  | some zv =>
    have hh : parseHeader (wkbPointBytes false x y (some zv) ++ rest) =
        some ((true, 1), packF64 false x ++ (packF64 false y ++
          (packF64 false zv ++ rest))) := by
      rw [show wkbPointBytes false x y (some zv) ++ rest =
        1 :: (u32Bytes false (1 ||| 0x80000000) ++
          (packF64 false x ++ (packF64 false y ++
            (packF64 false zv ++ rest)))) from by
        simp [wkbPointBytes, boFlag]]
      exact parseHeader_round_t (1 ||| 0x80000000) true 1 (by decide)
        (by decide) (by decide) _
    rw [hh]
    rw [Option.some_bind]
    simp only [if_pos]
    rw [parsePointComp_round x y (some zv) rest]
    rfl

/-- Round trip for a linestring at the top level. -/
theorem roundtripLine (pts : List (F64 × F64)) (zv : Option (List F64))
    (hinv : lineInv pts zv) (bs rest : List ℕ)
    (henc : to_wkb false (.linestring pts zv) = some bs) :
    parseWkb (bs ++ rest) = some (.linestring pts zv, rest) := by
  have hbase : ∃ payload, parseHeader (bs ++ rest) = some
      ((lineHasZ zv, 2), payload) := by
    cases hzv : lineHasZ zv with
    | false =>
      simp only [to_wkb, wkbLineStringBytes, hzv, Bool.false_eq_true,
        if_false, Option.bind_eq_some', Option.map_eq_some', boFlag] at henc
      obtain ⟨cnt, hcnt, coords, hcoords, hbs⟩ := henc
      unfold packCount at hcnt
      split at hcnt
      · simp only [Option.some.injEq] at hcnt
        subst hcnt hbs
        refine ⟨u32Bytes false pts.length ++ (coords ++ rest), ?_⟩
        simp only [boFlag, Bool.false_eq_true, if_false, List.cons_append,
          List.append_assoc]
        exact parseHeader_round_t (2 ||| 0) false 2 (by decide) (by decide)
          (by decide) _
      · exact absurd hcnt (by simp)
    | true =>
      simp only [to_wkb, wkbLineStringBytes, hzv, if_true,
        Option.bind_eq_some', Option.map_eq_some', boFlag] at henc
      obtain ⟨cnt, hcnt, coords, hcoords, hbs⟩ := henc
      unfold packCount at hcnt
      split at hcnt
      · simp only [Option.some.injEq] at hcnt
        subst hcnt hbs
        refine ⟨u32Bytes false pts.length ++ (coords ++ rest), ?_⟩
        simp only [boFlag, Bool.false_eq_true, if_false, List.cons_append,
          List.append_assoc]
        exact parseHeader_round_t (2 ||| 0x80000000) true 2 (by decide)
          (by decide) (by decide) _
      · exact absurd hcnt (by simp)
  obtain ⟨payload, hh⟩ := hbase
  unfold parseWkb
  rw [hh]
  simp +decide only [Option.some_bind]
  rw [parseLineComp_round pts zv hinv bs rest henc]
  rfl

/-- Round trip for a polygon at the top level. -/
theorem roundtripPoly (rings : List (List (F64 × F64)))
    (zv : Option (List (List F64))) (hinv : polyInv rings zv)
    (bs rest : List ℕ)
    (henc : to_wkb false (.polygon rings zv) = some bs) :
    parseWkb (bs ++ rest) = some (.polygon rings zv, rest) := by
  have hbase : ∃ payload, parseHeader (bs ++ rest) = some
      ((polyHasZ zv, 3), payload) := by
    cases hzv : polyHasZ zv with
    | false =>
      simp only [to_wkb, wkbPolygonBytes, hzv, Bool.false_eq_true,
        if_false, Option.bind_eq_some', Option.map_eq_some', boFlag] at henc
      obtain ⟨cnt, hcnt, body, hbody, hbs⟩ := henc
      unfold packCount at hcnt
      split at hcnt
      · simp only [Option.some.injEq] at hcnt
        subst hcnt hbs
        refine ⟨u32Bytes false rings.length ++ (body ++ rest), ?_⟩
        simp only [boFlag, Bool.false_eq_true, if_false, List.cons_append,
          List.append_assoc]
        exact parseHeader_round_t (3 ||| 0) false 3 (by decide) (by decide)
          (by decide) _
      · exact absurd hcnt (by simp)
    | true =>
      simp only [to_wkb, wkbPolygonBytes, hzv, if_true,
        Option.bind_eq_some', Option.map_eq_some', boFlag] at henc
      obtain ⟨cnt, hcnt, body, hbody, hbs⟩ := henc
      unfold packCount at hcnt
      split at hcnt
      · simp only [Option.some.injEq] at hcnt
        subst hcnt hbs
        refine ⟨u32Bytes false rings.length ++ (body ++ rest), ?_⟩
        simp only [boFlag, Bool.false_eq_true, if_false, List.cons_append,
          List.append_assoc]
        exact parseHeader_round_t (3 ||| 0x80000000) true 3 (by decide)
          (by decide) (by decide) _
      · exact absurd hcnt (by simp)
  obtain ⟨payload, hh⟩ := hbase
  unfold parseWkb
  rw [hh]
  simp +decide only [Option.some_bind]
  rw [parsePolyComp_round rings zv hinv bs rest henc]
  rfl

/-- Round trip for a multipoint at the top level. -/
theorem roundtripMPoint (pts : List (F64 × F64 × Option F64))
    (bs rest : List ℕ)
    (henc : to_wkb false (.multipoint pts) = some bs) :
    parseWkb (bs ++ rest) = some (.multipoint pts, rest) := by
  simp only [to_wkb, Option.map_eq_some'] at henc
  obtain ⟨cnt, hcnt, hbs⟩ := henc
  unfold packCount at hcnt
  split at hcnt
  · next h32 =>
    simp only [Option.some.injEq] at hcnt
    subst hcnt hbs
    unfold parseWkb
    cases hany : pts.any fun p => p.2.2.isSome with
    | false =>
      have hh := parseHeader_round_t (4 ||| 0) false 4 (by decide)
        (by decide) (by decide)
        (u32Bytes false pts.length ++
          ((pts.map fun p => wkbPointBytes false p.1 p.2.1 p.2.2).flatten
            ++ rest))
      simp only [boFlag, Bool.false_eq_true, if_false, List.cons_append,
        List.append_assoc]
      rw [hh]
      simp +decide [Option.some_bind, parseU32_round pts.length h32,
        parseNComps_points pts rest]
    | true =>
      have hh := parseHeader_round_t (4 ||| 0x80000000) true 4 (by decide)
        (by decide) (by decide)
        (u32Bytes false pts.length ++
          ((pts.map fun p => wkbPointBytes false p.1 p.2.1 p.2.2).flatten
            ++ rest))
      simp only [boFlag, Bool.false_eq_true, if_false, if_true,
        List.cons_append, List.append_assoc]
      rw [hh]
      simp +decide [Option.some_bind, parseU32_round pts.length h32,
        parseNComps_points pts rest]
  · exact absurd hcnt (by simp)

/-- Round trip for a multilinestring at the top level. -/
theorem roundtripMLine
    (lines : List (List (F64 × F64) × Option (List F64)))
    (hinv : ∀ l ∈ lines, lineInv l.1 l.2) (bs rest : List ℕ)
    (henc : to_wkb false (.multilinestring lines) = some bs) :
    parseWkb (bs ++ rest) = some (.multilinestring lines, rest) := by
  simp only [to_wkb, Option.bind_eq_some', Option.map_eq_some'] at henc
  obtain ⟨cnt, hcnt, comps, hcomps, hbs⟩ := henc
  unfold packCount at hcnt
  split at hcnt
  · next h32 =>
    simp only [Option.some.injEq] at hcnt
    subst hcnt hbs
    unfold parseWkb
    cases hany : lines.any fun l => lineHasZ l.2 with
    | false =>
      have hh := parseHeader_round_t (5 ||| 0) false 5 (by decide)
        (by decide) (by decide)
        (u32Bytes false lines.length ++ (comps.flatten ++ rest))
      simp only [boFlag, Bool.false_eq_true, if_false, List.cons_append,
        List.append_assoc]
      rw [hh]
      simp +decide [Option.some_bind, parseU32_round lines.length h32,
        parseNComps_lines lines hinv comps rest hcomps]
    | true =>
      have hh := parseHeader_round_t (5 ||| 0x80000000) true 5 (by decide)
        (by decide) (by decide)
        (u32Bytes false lines.length ++ (comps.flatten ++ rest))
      simp only [boFlag, Bool.false_eq_true, if_false, if_true,
        List.cons_append, List.append_assoc]
      rw [hh]
      simp +decide [Option.some_bind, parseU32_round lines.length h32,
        parseNComps_lines lines hinv comps rest hcomps]
  · exact absurd hcnt (by simp)

/-- Round trip for a multipolygon at the top level. -/
theorem roundtripMPoly
    (polys : List (List (List (F64 × F64)) × Option (List (List F64))))
    (hinv : ∀ p ∈ polys, polyInv p.1 p.2) (bs rest : List ℕ)
    (henc : to_wkb false (.multipolygon polys) = some bs) :
    parseWkb (bs ++ rest) = some (.multipolygon polys, rest) := by
  simp only [to_wkb, Option.bind_eq_some', Option.map_eq_some'] at henc
  obtain ⟨cnt, hcnt, comps, hcomps, hbs⟩ := henc
  unfold packCount at hcnt
  split at hcnt
  · next h32 =>
    simp only [Option.some.injEq] at hcnt
    subst hcnt hbs
    unfold parseWkb
    cases hany : polys.any fun p => polyHasZ p.2 with
    | false =>
      have hh := parseHeader_round_t (6 ||| 0) false 6 (by decide)
        (by decide) (by decide)
        (u32Bytes false polys.length ++ (comps.flatten ++ rest))
      simp only [boFlag, Bool.false_eq_true, if_false, List.cons_append,
        List.append_assoc]
      rw [hh]
      simp +decide [Option.some_bind, parseU32_round polys.length h32,
        parseNComps_polys polys hinv comps rest hcomps]
    | true =>
      have hh := parseHeader_round_t (6 ||| 0x80000000) true 6 (by decide)
        (by decide) (by decide)
        (u32Bytes false polys.length ++ (comps.flatten ++ rest))
      simp only [boFlag, Bool.false_eq_true, if_false, if_true,
        List.cons_append, List.append_assoc]
      rw [hh]
      simp +decide [Option.some_bind, parseU32_round polys.length h32,
        parseNComps_polys polys hinv comps rest hcomps]
  · exact absurd hcnt (by simp)

/-- C9.  For every geometry satisfying the spec's data-model invariants
whose little-endian WKB emission succeeds, a conforming OGC WKB parser over
the claim's layout (byte-order byte `0x01`, 32-bit type code with the
`0x80000000` Z flag, 32-bit counts, doubles, nested components with their
own headers) recovers the geometry exactly, leaving the tail untouched. -/
theorem wkb_roundtrip :
    ∀ (G : WGeometry) (bs rest : List ℕ),
      WInvariant G → to_wkb false G = some bs →
      parseWkb (bs ++ rest) = some (G, rest) := by
  intro G bs rest hinv henc
  cases G with
  | point x y z => exact roundtripPoint x y z bs rest henc
  | linestring pts zv => exact roundtripLine pts zv hinv bs rest henc
  | polygon rings zv => exact roundtripPoly rings zv hinv bs rest henc
  | multipoint pts => exact roundtripMPoint pts bs rest henc
  | multilinestring lines =>
    exact roundtripMLine lines hinv.2 bs rest henc
  | multipolygon polys =>
    exact roundtripMPoly polys hinv.2 bs rest henc

/-- Witness: the round trip holds at the concrete 2-D point `(1, 2)` with a
one-byte tail. -/
theorem wkb_roundtrip_witness :
    WInvariant (WGeometry.point 1 2 none) ∧
    to_wkb false (WGeometry.point 1 2 none) =
      some (wkbPointBytes false 1 2 none) ∧
    parseWkb (wkbPointBytes false 1 2 none ++ [7]) =
      some (WGeometry.point 1 2 none, [7]) := by
  refine ⟨trivial, rfl, ?_⟩
  exact wkb_roundtrip (WGeometry.point 1 2 none)
    (wkbPointBytes false 1 2 none) [7] trivial rfl

end MobileGeodatabase

